import Mathlib

/-!
Shallow embedding of `src/bigint.py` (class `BigInt`) and
`src/examples/max_product/max_product.py` from the pybigint repository.

A `BigInt` is modelled by its digit store: a `List Nat`, index 0 being the
least-significant decimal digit.  The partial functions of the source
(`__init__` and `add_at` raise on negative arguments) are modelled with
`Except String`; the underlying total digit-level transformations are plain
functions.  The recursive carry propagation of `add_at` is embedded with an
explicit fuel argument (the recursion of the source is not structural); the
fuel `value + (digits after idx).sum + 1` is proved sufficient below, which
is exactly the termination argument for the source.
-/

namespace BigInt

/-- The digit-extraction loop of `BigInt.__init__`: `n` iterations of
`value % 10` / `value //= 10`, least-significant digit first. -/
def digitsOf : Nat → Nat → List Nat
  | _, 0 => []
  | v, Nat.succ n => v % 10 :: digitsOf (v / 10) n

/-- `BigInt.__init__` when `value` is given and non-negative
(`value = 0` gives the empty store; otherwise
`val_dc = int(math.log10(value)) + 1`, truncated by `digit_count`). -/
def fromInt (value : Nat) (digit_count : Option Int) : List Nat :=
  if value = 0 then []
  else
    let val_dc : Int := (Nat.log 10 value : Int) + 1
    let num_dc : Int :=
      match digit_count with
      | none => val_dc
      | some dc => min val_dc dc
    digitsOf value num_dc.toNat

/-- `BigInt.__init__` with a `value` argument, including the negative-value
check (`raise NotImplementedError`, the spec's `InvalidArgument` class). -/
def init (value : Int) (digit_count : Option Int) : Except String (List Nat) :=
  if value < 0 then .error "negative value not implemented"
  else .ok (fromInt value.toNat digit_count)

/-- The `while idx >= len(self): self._digits.append(0)` loop:
append zero cells until the length is at least `n`. -/
def padTo (ds : List Nat) (n : Nat) : List Nat :=
  ds ++ List.replicate (n - ds.length) 0

/-- `BigInt.add_at` for non-negative `value`, with an explicit fuel bounding
the recursion depth; `none` means the fuel was exhausted. -/
def add_at_fuel : Nat → List Nat → Nat → Nat → Option (List Nat)
  | 0, _, _, _ => none
  | fuel + 1, ds, idx, value =>
    if value = 0 then some ds
    else
      let p := padTo ds (idx + 1)
      let nv := p.getD idx 0 + value
      add_at_fuel fuel (p.set idx (nv % 10)) (idx + 1) (nv / 10)

/-- `BigInt.add_at` for non-negative `value`, run with sufficient fuel
(sufficiency is proved in `add_at_fuel_enough`). -/
def add_at (ds : List Nat) (idx value : Nat) : List Nat :=
  (add_at_fuel (value + (ds.drop idx).sum + 1) ds idx value).getD ds

/-- `BigInt.add_at` including the negative-value check
(`raise NotImplementedError`, the spec's `InvalidArgument` class). -/
def add_at_checked (ds : List Nat) (idx : Nat) (value : Int) :
    Except String (List Nat) :=
  if value < 0 then .error "negative value not implemented"
  else .ok (add_at ds idx value.toNat)

/-- `BigInt.__int__`: `val += digits[i] * 10**i` over `i in range(len)`. -/
def toInt (ds : List Nat) : Nat :=
  (List.range ds.length).foldl (fun val i => val + ds.getD i 0 * 10 ^ i) 0

/-- Reference value of a digit store (Horner form); proved equal to `toInt`
in `toInt_eq_toVal`. -/
def toVal : List Nat → Nat
  | [] => 0
  | d :: t => d + 10 * toVal t

/-- `BigInt.__add__`: for each position up to the longer operand, deposit the
two digits' sum into a fresh accumulator via `add_at`. -/
def add (a b : List Nat) : List Nat :=
  (List.range (max a.length b.length)).foldl
    (fun result i => add_at result i (a.getD i 0 + b.getD i 0)) []

/-- The inner loop of `BigInt.__mul__` for one digit `bj` of the second
operand at position `j`: fold over the first operand's digits carrying
`(accumulator, carry)`. -/
def mulRow (a : List Nat) (bj j : Nat) (result : List Nat) : List Nat × Nat :=
  (List.range a.length).foldl
    (fun st i =>
      let product := a.getD i 0 * bj + st.2
      (add_at st.1 (j + i) (product % 10), product / 10))
    (result, 0)

/-- `BigInt.__mul__`: schoolbook multiplication; after each row a leftover
carry is deposited at position `j + len(a)`. -/
def mul (a b : List Nat) : List Nat :=
  (List.range b.length).foldl
    (fun result j =>
      let st := mulRow a (b.getD j 0) j result
      if st.2 ≠ 0 then add_at st.1 (j + a.length) st.2 else st.1)
    []

/-- The digit scan of `BigInt.__gt__` on equal-length stores, most
significant digit first (the input lists here are the reversed stores). -/
def gtLoop : List Nat → List Nat → Bool
  | d1 :: t1, d2 :: t2 =>
    if d1 > d2 then true
    else if d1 < d2 then false
    else gtLoop t1 t2
  | _, _ => false

/-- `BigInt.__gt__`: unequal lengths are decided by length alone; equal
lengths by the most-significant differing digit. -/
def gt (x y : List Nat) : Bool :=
  if x.length = y.length then gtLoop x.reverse y.reverse
  else decide (x.length > y.length)

/-- `BigInt.__ge__`: `not self < other`, where `self < other` falls back to
`other.__gt__(self)`. -/
def ge (x y : List Nat) : Bool := ! gt y x

/-- `BigInt.__le__`: `not self > other`. -/
def le (x y : List Nat) : Bool := ! gt x y

/-- `BigInt.__str__`: prepend each digit's decimal representation, so the
result reads most-significant digit first. -/
def str (ds : List Nat) : String :=
  ds.foldl (fun s d => Nat.repr d ++ s) ""

/-- The canonical-form invariant: the most-significant cell (the last list
entry) is non-zero whenever the store is non-empty. -/
def canonical (ds : List Nat) : Bool :=
  match ds.getLast? with
  | none => true
  | some d => d != 0

/-- Every stored cell is a decimal digit. -/
def validDigits (ds : List Nat) : Bool :=
  ds.all (fun d => d < 10)

end BigInt

namespace MaxProduct

open BigInt

/-- The simultaneous digit swap
`a.digits[idx], b.digits[idx] = b.digits[idx], a.digits[idx]`. -/
def swapAt (a b : List Nat) (idx : Nat) : List Nat × List Nat :=
  (a.set idx (b.getD idx 0), b.set idx (a.getD idx 0))

/-- Return type of the brute-force search: the 6-tuple
`(c_max, d_max, p_max, c_min, d_min, p_min)`. -/
structure ExtremeResult where
  c_max : List Nat
  d_max : List Nat
  p_max : List Nat
  c_min : List Nat
  d_min : List Nat
  p_min : List Nat
  deriving Repr, DecidableEq

/-- The recursion of `calc_extreme_products_brute`: `k` is the number of
positions still to explore, so the current index is `a.length - k`.
At the base the product is computed; otherwise both branches (digits at the
current index swapped or not) are explored and compared with `>=` / `<=`. -/
def bruteAux : Nat → List Nat → List Nat → ExtremeResult
  | 0, a, b =>
    let prod := mul a b
    ⟨a, b, prod, a, b, prod⟩
  | k + 1, a, b =>
    let idx := a.length - (k + 1)
    let r1 := bruteAux k a b
    let s := swapAt a b idx
    let r2 := bruteAux k s.1 s.2
    let rmax := if ge r1.p_max r2.p_max then (r1.c_max, r1.d_max, r1.p_max)
                else (r2.c_max, r2.d_max, r2.p_max)
    let rmin := if le r1.p_min r2.p_min then (r1.c_min, r1.d_min, r1.p_min)
                else (r2.c_min, r2.d_min, r2.p_min)
    ⟨rmax.1, rmax.2.1, rmax.2.2, rmin.1, rmin.2.1, rmin.2.2⟩

/-- `calc_extreme_products_brute(a, b)`: raises `ValueError` on mismatched
lengths, otherwise explores every swap pattern over all positions. -/
def calc_extreme_products_brute (a b : List Nat) :
    Except String ExtremeResult :=
  if a.length ≠ b.length then .error "mismatched number length"
  else .ok (bruteAux a.length a b)

/-- The loop of `calc_max_product`, scanning positions from most significant
(`p = length - 1`, i.e. Python index `-1`) down to 0, carrying the working
copies `c`, `d` and the `found_diff` flag. -/
def maxLoop : Nat → List Nat → List Nat → Bool → List Nat × List Nat × Bool
  | 0, c, d, found_diff => (c, d, found_diff)
  | p + 1, c, d, found_diff =>
    let ci := c.getD p 0
    let di := d.getD p 0
    let curr_diff := ci != di
    if (!found_diff && curr_diff && decide (ci < di)) ||
        (found_diff && decide (ci > di)) then
      let c' := c.set p di
      let d' := d.set p ci
      maxLoop p c' d' (found_diff || (c'.getD p 0 != d'.getD p 0))
    else
      maxLoop p c d (found_diff || (ci != di))

/-- `calc_max_product(a, b)`: greedy maximization; returns `(c, d, c*d)`. -/
def calc_max_product (a b : List Nat) :
    Except String (List Nat × List Nat × List Nat) :=
  if a.length ≠ b.length then .error "mismatched number length"
  else
    let r := maxLoop a.length a b false
    .ok (r.1, r.2.1, mul r.1 r.2.1)

/-- The loop of `calc_min_product`: at every position give `c` the larger
digit. -/
def minLoop : Nat → List Nat → List Nat → List Nat × List Nat
  | 0, c, d => (c, d)
  | p + 1, c, d =>
    let ci := c.getD p 0
    let di := d.getD p 0
    if ci < di then minLoop p (c.set p di) (d.set p ci)
    else minLoop p c d

/-- `calc_min_product(a, b)`: greedy minimization; returns `(c, d, c*d)`. -/
def calc_min_product (a b : List Nat) :
    Except String (List Nat × List Nat × List Nat) :=
  if a.length ≠ b.length then .error "mismatched number length"
  else
    let r := minLoop a.length a b
    .ok (r.1, r.2, mul r.1 r.2)

/-- The outcomes reachable by independently choosing, for every position at
or beyond `idx`, whether to swap the two stores' digits; positions below
`idx` keep the original orientation.  This is the search space of
`calc_extreme_products_brute` from index `idx` on. -/
def PSwapFrom (idx : Nat) (a b c d : List Nat) : Prop :=
  c.length = a.length ∧ d.length = a.length ∧
  (∀ i, i < idx → c.getD i 0 = a.getD i 0 ∧ d.getD i 0 = b.getD i 0) ∧
  (∀ i, idx ≤ i → i < a.length →
    (c.getD i 0 = a.getD i 0 ∧ d.getD i 0 = b.getD i 0) ∨
    (c.getD i 0 = b.getD i 0 ∧ d.getD i 0 = a.getD i 0))

/-- Loop invariant of `calc_max_product`'s scan with `p` positions still to
process (positions `p, p+1, ...` are done): if a differing pair has been
seen, the most significant differing position `k` holds the larger digit in
`c`, and every processed position below `k` holds the smaller digit in `c`. -/
def MaxInv (a b : List Nat) (p : Nat) (c d : List Nat) (fd : Bool) : Prop :=
  c.length = a.length ∧ d.length = a.length ∧
  (∀ i, i < p → c.getD i 0 = a.getD i 0 ∧ d.getD i 0 = b.getD i 0) ∧
  (fd = false →
    (∀ i, p ≤ i → i < a.length → a.getD i 0 = b.getD i 0) ∧
    (∀ i, p ≤ i → i < a.length →
      c.getD i 0 = a.getD i 0 ∧ d.getD i 0 = b.getD i 0)) ∧
  (fd = true → ∃ k, p ≤ k ∧ k < a.length ∧ a.getD k 0 ≠ b.getD k 0 ∧
    (∀ i, k < i → i < a.length → a.getD i 0 = b.getD i 0) ∧
    (∀ i, k < i → i < a.length →
      c.getD i 0 = a.getD i 0 ∧ d.getD i 0 = b.getD i 0) ∧
    c.getD k 0 = max (a.getD k 0) (b.getD k 0) ∧
    d.getD k 0 = min (a.getD k 0) (b.getD k 0) ∧
    (∀ i, p ≤ i → i < k →
      c.getD i 0 = min (a.getD i 0) (b.getD i 0) ∧
      d.getD i 0 = max (a.getD i 0) (b.getD i 0)))

/-- Loop invariant of `calc_min_product`'s scan: every processed position
holds the larger digit in `c` and the smaller in `d`. -/
def MinInv (a b : List Nat) (p : Nat) (c d : List Nat) : Prop :=
  c.length = a.length ∧ d.length = a.length ∧
  (∀ i, i < p → c.getD i 0 = a.getD i 0 ∧ d.getD i 0 = b.getD i 0) ∧
  (∀ i, p ≤ i → i < a.length →
    c.getD i 0 = max (a.getD i 0) (b.getD i 0) ∧
    d.getD i 0 = min (a.getD i 0) (b.getD i 0))

end MaxProduct

/-! ## Basic facts about `padTo` and the `add_at` recursion -/

namespace BigInt

theorem length_padTo (ds : List Nat) (n : Nat) :
    (padTo ds n).length = max ds.length n := by
  simp only [padTo, List.length_append, List.length_replicate]
  omega

theorem getD_padTo (ds : List Nat) (n i : Nat) :
    (padTo ds n).getD i 0 = ds.getD i 0 := by
  rcases lt_or_ge i ds.length with h | h
  · rw [List.getD_eq_getElem _ _ (by rw [length_padTo]; omega),
      List.getD_eq_getElem _ _ h]
    exact List.getElem_append_left h
  · rw [List.getD_eq_default _ _ h]
    rcases lt_or_ge i (padTo ds n).length with h2 | h2
    · rw [List.getD_eq_getElem _ _ h2]
      have h3 : i < (padTo ds n).length := h2
      rw [length_padTo] at h3
      simp only [padTo]
      rw [List.getElem_append_right h]
      apply List.getElem_replicate
    · rw [List.getD_eq_default _ _ h2]

theorem sum_drop_padTo (ds : List Nat) (n idx : Nat) :
    ((padTo ds n).drop idx).sum = (ds.drop idx).sum := by
  simp only [padTo]
  rw [List.drop_append_eq_append_drop, List.sum_append]
  have hz : ((List.replicate (n - ds.length) (0 : Nat)).drop
      (idx - ds.length)).sum = 0 := by
    apply List.sum_eq_zero
    intro x hx
    exact List.eq_of_mem_replicate (List.mem_of_mem_drop hx)
  rw [hz, Nat.add_zero]

theorem sum_drop_split (l : List Nat) (idx : Nat) (h : idx < l.length) :
    (l.drop idx).sum = l.getD idx 0 + (l.drop (idx + 1)).sum := by
  rw [List.drop_eq_getElem_cons h, List.sum_cons, List.getD_eq_getElem _ _ h]

/-- Strict decrease of the termination measure `value + (ds.drop idx).sum`
along the recursive call of `add_at`. -/
theorem add_at_measure_dec (ds : List Nat) (idx value : Nat) (h : value ≠ 0) :
    ((padTo ds (idx + 1)).getD idx 0 + value) / 10 +
      (((padTo ds (idx + 1)).set idx
          (((padTo ds (idx + 1)).getD idx 0 + value) % 10)).drop (idx + 1)).sum <
      value + (ds.drop idx).sum := by
  set p := padTo ds (idx + 1) with hp
  have hlen : idx < p.length := by rw [hp, length_padTo]; omega
  have hset : ((p.set idx ((p.getD idx 0 + value) % 10)).drop (idx + 1)).sum =
      (p.drop (idx + 1)).sum := by
    rw [List.drop_set_of_lt _ _ (by omega)]
  rw [hset]
  have hsplit : (p.drop idx).sum = p.getD idx 0 + (p.drop (idx + 1)).sum :=
    sum_drop_split p idx hlen
  have hpad : (p.drop idx).sum = (ds.drop idx).sum := sum_drop_padTo ds (idx + 1) idx
  have hdiv : (p.getD idx 0 + value) / 10 < p.getD idx 0 + value :=
    Nat.div_lt_self (by omega) (by omega)
  omega

theorem add_at_fuel_mono : ∀ (fuel fuel' : Nat) (ds : List Nat) (idx value : Nat)
    (r : List Nat), add_at_fuel fuel ds idx value = some r → fuel ≤ fuel' →
    add_at_fuel fuel' ds idx value = some r := by
  intro fuel
  induction fuel with
  | zero => intro fuel' ds idx value r h; simp [add_at_fuel] at h
  | succ n ih =>
    intro fuel' ds idx value r h hle
    obtain ⟨m, rfl⟩ : ∃ m, fuel' = m + 1 := ⟨fuel' - 1, by omega⟩
    simp only [add_at_fuel] at h ⊢
    by_cases hv : value = 0
    · simpa [hv] using h
    · simp only [hv, if_false] at h ⊢
      exact ih m _ _ _ r h (by omega)

theorem add_at_fuel_enough : ∀ (fuel : Nat) (ds : List Nat) (idx value : Nat),
    value + (ds.drop idx).sum < fuel →
    (add_at_fuel fuel ds idx value).isSome := by
  intro fuel
  induction fuel with
  | zero => intro ds idx value h; omega
  | succ n ih =>
    intro ds idx value h
    simp only [add_at_fuel]
    by_cases hv : value = 0
    · simp [hv]
    · simp only [hv, if_false]
      apply ih
      have := add_at_measure_dec ds idx value hv
      omega

theorem add_at_fuel_eq (fuel : Nat) (ds : List Nat) (idx value : Nat)
    (h : value + (ds.drop idx).sum < fuel) :
    add_at_fuel fuel ds idx value = some (add_at ds idx value) := by
  have h0 : value + (ds.drop idx).sum < value + (ds.drop idx).sum + 1 := by omega
  obtain ⟨r, hr⟩ := Option.isSome_iff_exists.1 (add_at_fuel_enough _ ds idx value h0)
  have h1 : add_at_fuel (max fuel (value + (ds.drop idx).sum + 1)) ds idx value =
      some r := add_at_fuel_mono _ _ _ _ _ _ hr (by omega)
  obtain ⟨r', hr'⟩ := Option.isSome_iff_exists.1 (add_at_fuel_enough fuel ds idx value h)
  have h2 : add_at_fuel (max fuel (value + (ds.drop idx).sum + 1)) ds idx value =
      some r' := add_at_fuel_mono _ _ _ _ _ _ hr' (by omega)
  rw [h1] at h2
  simp only [Option.some.injEq] at h2
  have h3 : add_at ds idx value = r := by rw [add_at, hr]; rfl
  rw [hr', h3, h2]

/-- First recursion equation of `add_at`: adding `0` is a no-op. -/
theorem add_at_zero (ds : List Nat) (idx : Nat) : add_at ds idx 0 = ds := rfl

/-- Second recursion equation of `add_at`: for a non-zero amount, grow the
store to cover `idx`, keep the cell's value mod 10 and carry the quotient to
`idx + 1`. -/
theorem add_at_step (ds : List Nat) (idx value : Nat) (h : value ≠ 0) :
    add_at ds idx value =
      add_at ((padTo ds (idx + 1)).set idx
          (((padTo ds (idx + 1)).getD idx 0 + value) % 10)) (idx + 1)
        (((padTo ds (idx + 1)).getD idx 0 + value) / 10) := by
  have hmain : add_at_fuel (value + (ds.drop idx).sum + 1) ds idx value =
      some (add_at ds idx value) := add_at_fuel_eq _ _ _ _ (by omega)
  rw [show value + (ds.drop idx).sum + 1 = (value + (ds.drop idx).sum) + 1 from rfl]
    at hmain
  simp only [add_at_fuel, h, if_false] at hmain
  have hdec := add_at_measure_dec ds idx value h
  have h2 := add_at_fuel_eq (value + (ds.drop idx).sum)
    ((padTo ds (idx + 1)).set idx (((padTo ds (idx + 1)).getD idx 0 + value) % 10))
    (idx + 1) (((padTo ds (idx + 1)).getD idx 0 + value) / 10) (by omega)
  rw [hmain] at h2
  simp only [Option.some.injEq] at h2
  rw [h2]

/-- Induction principle following the recursion structure of `add_at`. -/
theorem add_at_rec (P : List Nat → Nat → Nat → Prop)
    (h0 : ∀ ds idx, P ds idx 0)
    (h1 : ∀ ds idx value, value ≠ 0 →
      P ((padTo ds (idx + 1)).set idx
          (((padTo ds (idx + 1)).getD idx 0 + value) % 10)) (idx + 1)
        (((padTo ds (idx + 1)).getD idx 0 + value) / 10) →
      P ds idx value) :
    ∀ ds idx value, P ds idx value := by
  intro ds idx value
  generalize hm : value + (ds.drop idx).sum = m
  induction m using Nat.strong_induction_on generalizing ds idx value with
  | _ m ih =>
    by_cases hv : value = 0
    · subst hv; exact h0 ds idx
    · refine h1 ds idx value hv ?_
      have hdec := add_at_measure_dec ds idx value hv
      exact ih _ (by omega) _ _ _ rfl

/-! ## Value semantics of `add_at` -/

theorem toVal_append_replicate_zero (l : List Nat) (k : Nat) :
    toVal (l ++ List.replicate k 0) = toVal l := by
  induction l with
  | nil =>
    simp only [List.nil_append]
    induction k with
    | zero => rfl
    | succ n ih => simpa [List.replicate_succ, toVal] using ih
  | cons d t ih => simp [toVal, ih]

theorem toVal_padTo (ds : List Nat) (n : Nat) : toVal (padTo ds n) = toVal ds :=
  toVal_append_replicate_zero ds (n - ds.length)

theorem padTo_eq_self (ds : List Nat) (n : Nat) (h : n ≤ ds.length) :
    padTo ds n = ds := by
  simp [padTo, Nat.sub_eq_zero_of_le h]

theorem toVal_set (l : List Nat) (i x : Nat) (h : i < l.length) :
    toVal (l.set i x) + l.getD i 0 * 10 ^ i = toVal l + x * 10 ^ i := by
  induction l generalizing i with
  | nil => simp at h
  | cons d t ih =>
    cases i with
    | zero => simp [toVal, List.set]; ring
    | succ n =>
      simp only [List.set, toVal, List.getD_cons_succ, pow_succ]
      have := ih n (by simpa using h)
      calc d + 10 * toVal (t.set n x) + t.getD n 0 * (10 ^ n * 10)
          = d + 10 * (toVal (t.set n x) + t.getD n 0 * 10 ^ n) := by ring
        _ = d + 10 * (toVal t + x * 10 ^ n) := by rw [this]
        _ = d + 10 * toVal t + x * (10 ^ n * 10) := by ring

theorem getD_set_self (l : List Nat) (i x : Nat) (h : i < l.length) :
    (l.set i x).getD i 0 = x := by
  rw [List.getD_eq_getElem _ _ (by simpa using h)]
  simp [List.getElem_set_self]

theorem getD_set_ne (l : List Nat) (i j x : Nat) (h : i ≠ j) :
    (l.set i x).getD j 0 = l.getD j 0 := by
  rw [List.getD_eq_getElem?_getD, List.getElem?_set_ne h, ← List.getD_eq_getElem?_getD]

/-- The central semantic fact: `add_at` adds `value * 10 ^ idx` to the value
of the digit store. -/
theorem toVal_add_at (ds : List Nat) (idx value : Nat) :
    toVal (add_at ds idx value) = toVal ds + value * 10 ^ idx := by
  induction ds, idx, value using add_at_rec with
  | h0 ds idx => rw [add_at_zero]; simp
  | h1 ds idx value hv ih =>
    rw [add_at_step ds idx value hv, ih]
    set p := padTo ds (idx + 1) with hp
    set d := p.getD idx 0 with hd
    have hlen : idx < p.length := by rw [hp, length_padTo]; omega
    have key := toVal_set p idx ((d + value) % 10) hlen
    rw [← hd] at key
    have cancel : ∀ x y z : Nat, x + z = y + z → x = y := by intro x y z h; omega
    apply cancel _ _ (d * 10 ^ idx)
    calc toVal (p.set idx ((d + value) % 10)) + (d + value) / 10 * 10 ^ (idx + 1) +
          d * 10 ^ idx
        = toVal (p.set idx ((d + value) % 10)) + d * 10 ^ idx +
            (d + value) / 10 * 10 ^ (idx + 1) := by ring
      _ = toVal p + (d + value) % 10 * 10 ^ idx +
            (d + value) / 10 * 10 ^ (idx + 1) := by rw [key]
      _ = toVal p + ((d + value) % 10 + (d + value) / 10 * 10) * 10 ^ idx := by
            rw [pow_succ]; ring
      _ = toVal p + (d + value) * 10 ^ idx := by rw [Nat.mod_add_div']
      _ = toVal ds + (d + value) * 10 ^ idx := by rw [hp, toVal_padTo]
      _ = toVal ds + value * 10 ^ idx + d * 10 ^ idx := by ring

/-- `add_at` never shrinks the store; a non-zero amount forces coverage of
position `idx`. -/
theorem length_add_at (ds : List Nat) (idx value : Nat) :
    ds.length ≤ (add_at ds idx value).length ∧
      (value ≠ 0 → idx < (add_at ds idx value).length) := by
  induction ds, idx, value using add_at_rec with
  | h0 ds idx => rw [add_at_zero]; exact ⟨Nat.le_refl _, by simp⟩
  | h1 ds idx value hv ih =>
    rw [add_at_step ds idx value hv]
    have hlen : ((padTo ds (idx + 1)).set idx
        (((padTo ds (idx + 1)).getD idx 0 + value) % 10)).length =
        max ds.length (idx + 1) := by
      rw [List.length_set, length_padTo]
    constructor
    · calc ds.length ≤ max ds.length (idx + 1) := Nat.le_max_left _ _
        _ = _ := hlen.symm
        _ ≤ _ := ih.1
    · intro _
      calc idx < idx + 1 := Nat.lt_succ_self _
        _ ≤ max ds.length (idx + 1) := Nat.le_max_right _ _
        _ = _ := hlen.symm
        _ ≤ _ := ih.1

theorem canonical_nil : canonical [] = true := rfl

theorem canonical_iff_getD (l : List Nat) (h : l ≠ []) :
    canonical l = true ↔ l.getD (l.length - 1) 0 ≠ 0 := by
  have hl : 0 < l.length := List.length_pos.2 h
  rw [canonical, List.getLast?_eq_getElem?, List.getElem?_eq_getElem (by omega),
    List.getD_eq_getElem _ _ (by omega)]
  simp

/-- Canonical-form preservation along the `add_at` recursion, strengthened
for the inductive step: a call that targets a position at or beyond the
current length produces a canonical store no matter what the input was. -/
theorem canonical_add_at_aux (ds : List Nat) (idx value : Nat) :
    (value ≠ 0 ∧ ds.length ≤ idx) ∨ canonical ds = true →
    canonical (add_at ds idx value) = true := by
  induction ds, idx, value using add_at_rec with
  | h0 ds idx =>
    intro h
    rw [add_at_zero]
    rcases h with ⟨hv, _⟩ | h
    · exact absurd rfl hv
    · exact h
  | h1 ds idx value hv ih =>
    intro h
    rw [add_at_step ds idx value hv]
    set p := padTo ds (idx + 1) with hp
    set d := p.getD idx 0 with hd
    set ds' := p.set idx ((d + value) % 10) with hds'
    apply ih
    have hplen : p.length = max ds.length (idx + 1) := by rw [hp, length_padTo]
    have hlen' : ds'.length = max ds.length (idx + 1) := by
      rw [hds', List.length_set, hplen]
    by_cases hq : (d + value) / 10 = 0
    · -- the carry dies here: the cell just written must be non-zero
      right
      have hnv : d + value < 10 := by omega
      have hmod : (d + value) % 10 = d + value := Nat.mod_eq_of_lt hnv
      rcases le_or_lt ds.length idx with hc | hc
      · -- the store grew: the written cell is the new most significant one
        have hgrow : p.length = idx + 1 := by omega
        have hne : ds' ≠ [] := by
          intro hnil
          have := congrArg List.length hnil
          simp [hlen'] at this
        rw [canonical_iff_getD ds' hne]
        have hidx : ds'.length - 1 = idx := by omega
        rw [hidx, hds', getD_set_self p idx _ (by omega), hmod]
        omega
      · -- still inside the old store
        have hpds : p = ds := by rw [hp]; exact padTo_eq_self ds (idx + 1) (by omega)
        have hne : ds' ≠ [] := by
          intro hnil
          have := congrArg List.length hnil
          simp [hlen'] at this
        rw [canonical_iff_getD ds' hne]
        rcases Nat.lt_or_ge idx (ds.length - 1) with htop | htop
        · -- below the most significant cell: that cell is untouched
          have hcan : canonical ds = true := by
            rcases h with ⟨_, habs⟩ | hcan
            · omega
            · exact hcan
          have hne2 : ds ≠ [] := by intro hnil; subst hnil; simp at hc
          rw [canonical_iff_getD ds hne2] at hcan
          have hidx : ds'.length - 1 = ds.length - 1 := by omega
          rw [hidx, hds', hpds, getD_set_ne ds idx _ _ (by omega)]
          exact hcan
        · -- exactly the most significant cell: it receives `d + value ≥ 1`
          have hidx : ds'.length - 1 = idx := by omega
          rw [hidx, hds', getD_set_self p idx _ (by omega), hmod]
          omega
    · -- the carry survives
      rcases Nat.lt_or_ge (idx + 1) ds.length with hin | hout
      · -- strictly inside the old store: the most significant cell is untouched
        right
        have hcan : canonical ds = true := by
          rcases h with ⟨_, habs⟩ | hcan
          · omega
          · exact hcan
        have hpds : p = ds := by rw [hp]; exact padTo_eq_self ds (idx + 1) (by omega)
        have hne2 : ds ≠ [] := by
          intro hnil; rw [hnil] at hin; simp at hin
        have hne : ds' ≠ [] := by
          intro hnil
          have := congrArg List.length hnil
          simp [hlen'] at this
        rw [canonical_iff_getD ds' hne]
        rw [canonical_iff_getD ds hne2] at hcan
        have hidx : ds'.length - 1 = ds.length - 1 := by rw [hlen']; omega
        rw [hidx, hds', hpds, getD_set_ne ds idx _ _ (by omega)]
        exact hcan
      · -- the recursive call covers position `idx + 1`, the whole new store
        left
        refine ⟨hq, ?_⟩
        rw [hlen']
        omega

/-- `add_at` preserves the canonical no-leading-zero form. -/
theorem canonical_add_at (ds : List Nat) (idx value : Nat)
    (h : canonical ds = true) : canonical (add_at ds idx value) = true :=
  canonical_add_at_aux ds idx value (Or.inr h)

theorem validDigits_iff (l : List Nat) :
    validDigits l = true ↔ ∀ x ∈ l, x < 10 := by
  simp [validDigits]

theorem validDigits_add_at (ds : List Nat) (idx value : Nat)
    (h : validDigits ds = true) : validDigits (add_at ds idx value) = true := by
  induction ds, idx, value using add_at_rec with
  | h0 ds idx => rwa [add_at_zero]
  | h1 ds idx value hv ih =>
    rw [add_at_step ds idx value hv]
    apply ih
    rw [validDigits_iff]
    intro x hx
    rcases List.mem_or_eq_of_mem_set hx with hx' | hx'
    · have hx2 : x ∈ ds ++ List.replicate (idx + 1 - ds.length) 0 := by
        simpa only [padTo] using hx'
      rcases List.mem_append.1 hx2 with hx'' | hx''
      · exact (validDigits_iff ds).1 h x hx''
      · rw [List.eq_of_mem_replicate hx'']; omega
    · rw [hx']; exact Nat.mod_lt _ (by omega)

/-! ## Conversions -/

theorem toVal_eq_sum (l : List Nat) :
    toVal l = ∑ i ∈ Finset.range l.length, l.getD i 0 * 10 ^ i := by
  induction l with
  | nil => simp [toVal]
  | cons d t ih =>
    rw [List.length_cons, Finset.sum_range_succ']
    simp only [List.getD_cons_succ, List.getD_cons_zero, pow_zero, mul_one, pow_succ]
    rw [toVal, ih, Finset.mul_sum, Nat.add_comm]
    congr 1
    apply Finset.sum_congr rfl
    intro i _
    ring

theorem sum_ext_toVal (l : List Nat) (n : Nat) (h : l.length ≤ n) :
    ∑ i ∈ Finset.range n, l.getD i 0 * 10 ^ i = toVal l := by
  rw [toVal_eq_sum]
  symm
  apply Finset.sum_subset
  · intro x hx
    simp only [Finset.mem_range] at hx ⊢
    omega
  · intro x _ hx
    simp only [Finset.mem_range, not_lt] at hx
    rw [List.getD_eq_default _ _ hx]
    simp

theorem foldl_range_add (f : Nat → Nat) (n acc : Nat) :
    (List.range n).foldl (fun v i => v + f i) acc =
      acc + ∑ i ∈ Finset.range n, f i := by
  induction n generalizing acc with
  | zero => simp
  | succ m ih =>
    rw [List.range_succ, List.foldl_append, ih, Finset.sum_range_succ]
    simp [Nat.add_assoc]

theorem toInt_eq_toVal (l : List Nat) : toInt l = toVal l := by
  rw [toInt, foldl_range_add (fun i => l.getD i 0 * 10 ^ i) l.length 0,
    Nat.zero_add, ← toVal_eq_sum]

theorem length_digitsOf (v n : Nat) : (digitsOf v n).length = n := by
  induction n generalizing v with
  | zero => rfl
  | succ m ih => simp [digitsOf, ih]

theorem toVal_digitsOf (v n : Nat) : toVal (digitsOf v n) = v % 10 ^ n := by
  induction n generalizing v with
  | zero => simp [digitsOf, toVal, Nat.mod_one]
  | succ m ih =>
    rw [digitsOf, toVal, ih]
    have hMpos : (0 : Nat) < 10 ^ m := by positivity
    have h1 : v % 10 + 10 * (v / 10) = v := Nat.mod_add_div v 10
    have h2 : v / 10 % 10 ^ m + 10 ^ m * (v / 10 / 10 ^ m) = v / 10 :=
      Nat.mod_add_div _ _
    have hdecomp : v = v % 10 + 10 * (v / 10 % 10 ^ m) +
        10 ^ (m + 1) * (v / 10 / 10 ^ m) := by
      calc v = v % 10 + 10 * (v / 10) := h1.symm
        _ = v % 10 + 10 * (v / 10 % 10 ^ m + 10 ^ m * (v / 10 / 10 ^ m)) := by
            rw [h2]
        _ = v % 10 + 10 * (v / 10 % 10 ^ m) + 10 ^ (m + 1) * (v / 10 / 10 ^ m) := by
            rw [pow_succ]; ring
    have hlt : v % 10 + 10 * (v / 10 % 10 ^ m) < 10 ^ (m + 1) := by
      have ha := Nat.mod_lt v (show 0 < 10 by omega)
      have hb := Nat.mod_lt (v / 10) hMpos
      rw [pow_succ]
      omega
    conv_rhs => rw [hdecomp]
    rw [Nat.add_mul_mod_self_left, Nat.mod_eq_of_lt hlt]

theorem validDigits_digitsOf (v n : Nat) : validDigits (digitsOf v n) = true := by
  rw [validDigits_iff]
  induction n generalizing v with
  | zero => simp [digitsOf]
  | succ m ih =>
    intro x hx
    rcases List.mem_cons.1 hx with h | h
    · rw [h]; exact Nat.mod_lt _ (by omega)
    · exact ih (v / 10) x h

theorem getD_last_digitsOf (v n : Nat) :
    (digitsOf v (n + 1)).getD n 0 = v / 10 ^ n % 10 := by
  induction n generalizing v with
  | zero => simp [digitsOf]
  | succ m ih =>
    have : digitsOf v (m + 2) = v % 10 :: digitsOf (v / 10) (m + 1) := rfl
    rw [this, List.getD_cons_succ, ih, Nat.div_div_eq_div_mul, ← pow_succ']

/-- When no digit count is given, `fromInt` extracts exactly
`log10 value + 1` digits. -/
theorem fromInt_none (v : Nat) (h : v ≠ 0) :
    fromInt v none = digitsOf v (Nat.log 10 v + 1) := by
  rw [fromInt, if_neg h]
  have : ((Nat.log 10 v : Int) + 1).toNat = Nat.log 10 v + 1 := by omega
  simp only [this]

theorem toVal_fromInt_none (v : Nat) : toVal (fromInt v none) = v := by
  by_cases h : v = 0
  · subst h; rfl
  · rw [fromInt_none v h, toVal_digitsOf]
    exact Nat.mod_eq_of_lt (Nat.lt_pow_succ_log_self (by omega) v)

theorem validDigits_fromInt (v : Nat) (dc : Option Int) :
    validDigits (fromInt v dc) = true := by
  rw [fromInt]
  by_cases h : v = 0
  · simp [h, validDigits]
  · rw [if_neg h]
    apply validDigits_digitsOf

/-! ## Addition and multiplication -/

theorem foldl_preserve {α β : Type} (P : α → Prop) (f : α → β → α)
    (l : List β) (acc : α) (h : P acc) (hf : ∀ a b, P a → P (f a b)) :
    P (l.foldl f acc) := by
  induction l generalizing acc with
  | nil => exact h
  | cons x t ih => exact ih (f acc x) (hf acc x h)

theorem toVal_add_fold (a b : List Nat) (n : Nat) (acc : List Nat) :
    toVal ((List.range n).foldl
        (fun result i => add_at result i (a.getD i 0 + b.getD i 0)) acc) =
      toVal acc + ∑ i ∈ Finset.range n, (a.getD i 0 + b.getD i 0) * 10 ^ i := by
  induction n generalizing acc with
  | zero => simp
  | succ m ih =>
    rw [List.range_succ, List.foldl_append]
    simp only [List.foldl_cons, List.foldl_nil]
    rw [toVal_add_at, ih, Finset.sum_range_succ]
    ring

/-- `__add__` adds the values of its operands. -/
theorem toVal_add (a b : List Nat) : toVal (add a b) = toVal a + toVal b := by
  rw [add, toVal_add_fold]
  have h0 : toVal ([] : List Nat) = 0 := rfl
  rw [h0, Nat.zero_add,
    ← sum_ext_toVal a (max a.length b.length) (Nat.le_max_left _ _),
    ← sum_ext_toVal b (max a.length b.length) (Nat.le_max_right _ _),
    ← Finset.sum_add_distrib]
  apply Finset.sum_congr rfl
  intro i _
  ring

theorem canonical_add (a b : List Nat) : canonical (add a b) = true := by
  rw [add]
  apply foldl_preserve (fun l => canonical l = true)
  · rfl
  · intro l i h
    exact canonical_add_at _ _ _ h

theorem validDigits_add (a b : List Nat) : validDigits (add a b) = true := by
  rw [add]
  apply foldl_preserve (fun l => validDigits l = true)
  · rfl
  · intro l i h
    exact validDigits_add_at _ _ _ h

theorem mulRow_spec (a : List Nat) (bj j : Nat) (acc : List Nat) :
    toVal (mulRow a bj j acc).1 + (mulRow a bj j acc).2 * 10 ^ (j + a.length) =
      toVal acc + toVal a * bj * 10 ^ j := by
  rw [mulRow]
  have key : ∀ n : Nat, toVal ((List.range n).foldl
        (fun st i =>
          let product := a.getD i 0 * bj + st.2
          (add_at st.1 (j + i) (product % 10), product / 10)) (acc, 0)).1 +
      ((List.range n).foldl
        (fun st i =>
          let product := a.getD i 0 * bj + st.2
          (add_at st.1 (j + i) (product % 10), product / 10)) (acc, 0)).2 *
        10 ^ (j + n) =
      toVal acc + (∑ i ∈ Finset.range n, a.getD i 0 * 10 ^ i) * bj * 10 ^ j := by
    intro n
    induction n with
    | zero => simp
    | succ m ih =>
      rw [List.range_succ, List.foldl_append, Finset.sum_range_succ]
      simp only [List.foldl_cons, List.foldl_nil]
      set st := (List.range m).foldl
        (fun st i =>
          let product := a.getD i 0 * bj + st.2
          (add_at st.1 (j + i) (product % 10), product / 10)) (acc, 0) with hst
      rw [toVal_add_at]
      have cancel : ∀ x y z : Nat, x + z = y + z → x = y := by
        intro x y z h; omega
      have expand : toVal st.1 + (a.getD m 0 * bj + st.2) % 10 * 10 ^ (j + m) +
          (a.getD m 0 * bj + st.2) / 10 * 10 ^ (j + (m + 1)) =
          toVal st.1 + st.2 * 10 ^ (j + m) + a.getD m 0 * bj * 10 ^ (j + m) := by
        have hsplit : (a.getD m 0 * bj + st.2) % 10 * 10 ^ (j + m) +
            (a.getD m 0 * bj + st.2) / 10 * 10 ^ (j + (m + 1)) =
            (a.getD m 0 * bj + st.2) * 10 ^ (j + m) := by
          have : j + (m + 1) = (j + m) + 1 := by omega
          rw [this, pow_succ]
          calc (a.getD m 0 * bj + st.2) % 10 * 10 ^ (j + m) +
              (a.getD m 0 * bj + st.2) / 10 * (10 ^ (j + m) * 10) =
              ((a.getD m 0 * bj + st.2) % 10 +
                (a.getD m 0 * bj + st.2) / 10 * 10) * 10 ^ (j + m) := by ring
            _ = (a.getD m 0 * bj + st.2) * 10 ^ (j + m) := by
                rw [Nat.mod_add_div']
        calc toVal st.1 + (a.getD m 0 * bj + st.2) % 10 * 10 ^ (j + m) +
            (a.getD m 0 * bj + st.2) / 10 * 10 ^ (j + (m + 1)) =
            toVal st.1 + ((a.getD m 0 * bj + st.2) % 10 * 10 ^ (j + m) +
              (a.getD m 0 * bj + st.2) / 10 * 10 ^ (j + (m + 1))) := by ring
          _ = toVal st.1 + (a.getD m 0 * bj + st.2) * 10 ^ (j + m) := by rw [hsplit]
          _ = toVal st.1 + st.2 * 10 ^ (j + m) + a.getD m 0 * bj * 10 ^ (j + m) := by
              ring
      rw [expand, ih]
      rw [pow_add 10 j m]
      ring
  have h := key a.length
  rw [sum_ext_toVal a a.length (Nat.le_refl _)] at h
  exact h

theorem canonical_mulRow (a : List Nat) (bj j : Nat) (acc : List Nat)
    (h : canonical acc = true) : canonical (mulRow a bj j acc).1 = true := by
  rw [mulRow]
  exact foldl_preserve (fun st : List Nat × Nat => canonical st.1 = true) _ _
    (acc, 0) h (fun st i hst => canonical_add_at _ _ _ hst)

theorem validDigits_mulRow (a : List Nat) (bj j : Nat) (acc : List Nat)
    (h : validDigits acc = true) : validDigits (mulRow a bj j acc).1 = true := by
  rw [mulRow]
  exact foldl_preserve (fun st : List Nat × Nat => validDigits st.1 = true) _ _
    (acc, 0) h (fun st i hst => validDigits_add_at _ _ _ hst)

theorem toVal_mul_step (a : List Nat) (bj j : Nat) (acc : List Nat) :
    toVal (if (mulRow a bj j acc).2 ≠ 0
      then add_at (mulRow a bj j acc).1 (j + a.length) (mulRow a bj j acc).2
      else (mulRow a bj j acc).1) = toVal acc + toVal a * bj * 10 ^ j := by
  by_cases hc : (mulRow a bj j acc).2 = 0
  · rw [if_neg (by simp [hc])]
    have hs := mulRow_spec a bj j acc
    rw [hc] at hs
    simpa using hs
  · rw [if_pos hc, toVal_add_at]
    exact mulRow_spec a bj j acc

/-- `__mul__` multiplies the values of its operands. -/
theorem toVal_mul (a b : List Nat) : toVal (mul a b) = toVal a * toVal b := by
  rw [mul]
  have key : ∀ (n : Nat) (acc : List Nat),
      toVal ((List.range n).foldl
        (fun result j =>
          let st := mulRow a (b.getD j 0) j result
          if st.2 ≠ 0 then add_at st.1 (j + a.length) st.2 else st.1) acc) =
      toVal acc + toVal a * ∑ j ∈ Finset.range n, b.getD j 0 * 10 ^ j := by
    intro n
    induction n with
    | zero => simp
    | succ m ih =>
      intro acc
      rw [List.range_succ, List.foldl_append]
      simp only [List.foldl_cons, List.foldl_nil]
      rw [toVal_mul_step, ih, Finset.sum_range_succ]
      ring
  have h := key b.length []
  rw [sum_ext_toVal b b.length (Nat.le_refl _)] at h
  rw [h]
  simp [toVal]

theorem canonical_mul (a b : List Nat) : canonical (mul a b) = true := by
  rw [mul]
  refine foldl_preserve (fun l => canonical l = true) _ _ _ rfl ?_
  intro l j h
  show canonical (if (mulRow a (b.getD j 0) j l).2 ≠ 0
      then add_at (mulRow a (b.getD j 0) j l).1 (j + a.length)
        (mulRow a (b.getD j 0) j l).2
      else (mulRow a (b.getD j 0) j l).1) = true
  split_ifs with hc
  · exact canonical_add_at _ _ _ (canonical_mulRow a _ j l h)
  · exact canonical_mulRow a _ j l h

theorem validDigits_mul (a b : List Nat) : validDigits (mul a b) = true := by
  rw [mul]
  refine foldl_preserve (fun l => validDigits l = true) _ _ _ rfl ?_
  intro l j h
  show validDigits (if (mulRow a (b.getD j 0) j l).2 ≠ 0
      then add_at (mulRow a (b.getD j 0) j l).1 (j + a.length)
        (mulRow a (b.getD j 0) j l).2
      else (mulRow a (b.getD j 0) j l).1) = true
  split_ifs with hc
  · exact validDigits_add_at _ _ _ (validDigits_mulRow a _ j l h)
  · exact validDigits_mulRow a _ j l h

/-! ## Comparison -/

theorem toVal_append_singleton (l : List Nat) (d : Nat) :
    toVal (l ++ [d]) = toVal l + d * 10 ^ l.length := by
  induction l with
  | nil => simp [toVal]
  | cons x t ih =>
    rw [List.cons_append, toVal, toVal, ih, List.length_cons, pow_succ]
    ring

theorem toVal_lt_pow (l : List Nat) (h : ∀ d ∈ l, d < 10) :
    toVal l < 10 ^ l.length := by
  induction l with
  | nil => simp [toVal]
  | cons x t ih =>
    rw [toVal, List.length_cons, pow_succ]
    have hx : x < 10 := h x (List.mem_cons_self x t)
    have ht : toVal t < 10 ^ t.length := ih fun d hd => h d (List.mem_cons_of_mem x hd)
    omega

theorem pow_le_toVal_of_canonical : ∀ l : List Nat, canonical l = true → l ≠ [] →
    10 ^ (l.length - 1) ≤ toVal l := by
  intro l
  induction l with
  | nil => intro _ hne; exact absurd rfl hne
  | cons x t ih =>
    intro h _
    cases t with
    | nil =>
      have hx := (canonical_iff_getD [x] (by simp)).1 h
      have hx0 : x ≠ 0 := by simpa using hx
      simp only [toVal, List.length_cons, List.length_nil, Nat.add_sub_cancel,
        pow_zero]
      omega
    | cons y s =>
      have hct : canonical (y :: s) = true := by
        rw [canonical] at h ⊢
        rwa [List.getLast?_cons_cons] at h
      have hle := ih hct (by simp)
      rw [toVal, List.length_cons]
      have hexp : (y :: s).length + 1 - 1 = (y :: s).length - 1 + 1 := by
        simp
      have hpow : 10 ^ ((y :: s).length + 1 - 1) = 10 ^ ((y :: s).length - 1) * 10 := by
        rw [hexp, pow_succ]
      rw [hpow]
      have := Nat.mul_le_mul_right 10 hle
      omega

/-- The equal-length digit scan decides strict value comparison, provided all
cells are decimal digits.  The scan runs most-significant digit first, so the
lists here are reversed stores. -/
theorem gtLoop_val : ∀ l1 l2 : List Nat, l1.length = l2.length →
    (∀ d ∈ l1, d < 10) → (∀ d ∈ l2, d < 10) →
    (gtLoop l1 l2 = true ↔ toVal l2.reverse < toVal l1.reverse) := by
  intro l1
  induction l1 with
  | nil =>
    intro l2 h _ _
    cases l2 with
    | nil => simp [gtLoop, toVal]
    | cons d t => simp at h
  | cons d1 t1 ih =>
    intro l2 h h1 h2
    cases l2 with
    | nil => simp at h
    | cons d2 t2 =>
      have hlen : t1.length = t2.length := by simpa using h
      have hd1 : d1 < 10 := h1 d1 (List.mem_cons_self _ _)
      have hd2 : d2 < 10 := h2 d2 (List.mem_cons_self _ _)
      have ht1 : ∀ d ∈ t1, d < 10 := fun d hd => h1 d (List.mem_cons_of_mem _ hd)
      have ht2 : ∀ d ∈ t2, d < 10 := fun d hd => h2 d (List.mem_cons_of_mem _ hd)
      have hrev1 : toVal (d1 :: t1).reverse = toVal t1.reverse + d1 * 10 ^ t1.length := by
        rw [List.reverse_cons, toVal_append_singleton, List.length_reverse]
      have hrev2 : toVal (d2 :: t2).reverse = toVal t2.reverse + d2 * 10 ^ t1.length := by
        rw [List.reverse_cons, toVal_append_singleton, List.length_reverse, hlen]
      have hb1 : toVal t1.reverse < 10 ^ t1.length := by
        have := toVal_lt_pow t1.reverse fun d hd => ht1 d (List.mem_reverse.1 hd)
        rwa [List.length_reverse] at this
      have hb2 : toVal t2.reverse < 10 ^ t1.length := by
        have := toVal_lt_pow t2.reverse fun d hd => ht2 d (List.mem_reverse.1 hd)
        rwa [List.length_reverse, ← hlen] at this
      rw [hrev1, hrev2, gtLoop]
      by_cases hgt : d1 > d2
      · rw [if_pos hgt]
        refine ⟨fun _ => ?_, fun _ => rfl⟩
        calc toVal t2.reverse + d2 * 10 ^ t1.length
            < (d2 + 1) * 10 ^ t1.length := by rw [Nat.succ_mul]; omega
          _ ≤ d1 * 10 ^ t1.length := Nat.mul_le_mul_right _ (by omega)
          _ ≤ toVal t1.reverse + d1 * 10 ^ t1.length := Nat.le_add_left _ _
      · rw [if_neg hgt]
        by_cases hlt : d1 < d2
        · rw [if_pos hlt]
          constructor
          · intro hF; simp at hF
          · intro hC
            exfalso
            have hopp : toVal t1.reverse + d1 * 10 ^ t1.length <
                toVal t2.reverse + d2 * 10 ^ t1.length :=
              calc toVal t1.reverse + d1 * 10 ^ t1.length
                  < (d1 + 1) * 10 ^ t1.length := by rw [Nat.succ_mul]; omega
                _ ≤ d2 * 10 ^ t1.length := Nat.mul_le_mul_right _ (by omega)
                _ ≤ toVal t2.reverse + d2 * 10 ^ t1.length := Nat.le_add_left _ _
            omega
        · have heq : d1 = d2 := by omega
          rw [if_neg hlt, ih t2 hlen ht1 ht2, heq]
          omega

/-- The equal-length digit scan in terms of the first differing position of
its (most-significant-first) arguments. -/
theorem gtLoop_iff : ∀ l1 l2 : List Nat, l1.length = l2.length →
    (gtLoop l1 l2 = true ↔
      ∃ k, k < l1.length ∧ l2.getD k 0 < l1.getD k 0 ∧
        ∀ j, j < k → l1.getD j 0 = l2.getD j 0) := by
  intro l1
  induction l1 with
  | nil =>
    intro l2 h
    cases l2 with
    | nil => simp [gtLoop]
    | cons d t => simp at h
  | cons d1 t1 ih =>
    intro l2 h
    cases l2 with
    | nil => simp at h
    | cons d2 t2 =>
      have hlen : t1.length = t2.length := by simpa using h
      rw [gtLoop]
      by_cases hgt : d1 > d2
      · rw [if_pos hgt]
        refine ⟨fun _ => ⟨0, by simp, by simpa using hgt,
          fun j hj => absurd hj (Nat.not_lt_zero j)⟩, fun _ => rfl⟩
      · rw [if_neg hgt]
        by_cases hlt : d1 < d2
        · rw [if_pos hlt]
          constructor
          · intro hF; simp at hF
          · rintro ⟨k, hk, hdig, hpre⟩
            exfalso
            cases k with
            | zero => simp only [List.getD_cons_zero] at hdig; omega
            | succ k' =>
              have := hpre 0 (Nat.succ_pos _)
              simp only [List.getD_cons_zero] at this
              omega
        · have heq : d1 = d2 := by omega
          rw [if_neg hlt, ih t2 hlen]
          constructor
          · rintro ⟨k, hk, hdig, hpre⟩
            refine ⟨k + 1, by simpa using hk, by simpa using hdig, fun j hj => ?_⟩
            cases j with
            | zero => simpa using heq
            | succ j' =>
              have := hpre j' (by omega)
              simpa using this
          · rintro ⟨k, hk, hdig, hpre⟩
            cases k with
            | zero => simp only [List.getD_cons_zero] at hdig; omega
            | succ k' =>
              refine ⟨k', by simpa using hk, by simpa using hdig, fun j hj => ?_⟩
              have := hpre (j + 1) (by omega)
              simpa using this

theorem getD_reverse (l : List Nat) (k : Nat) (h : k < l.length) :
    l.reverse.getD k 0 = l.getD (l.length - 1 - k) 0 := by
  rw [List.getD_eq_getElem _ _ (by simpa using h),
    List.getD_eq_getElem _ _ (show l.length - 1 - k < l.length by omega)]
  exact List.getElem_reverse _

/-- On canonical stores with decimal digits, `__gt__` decides strict value
comparison. -/
theorem gt_val (x y : List Nat) (hx : validDigits x = true)
    (hy : validDigits y = true) (hcx : canonical x = true)
    (hcy : canonical y = true) :
    (gt x y = true ↔ toVal y < toVal x) := by
  rw [gt]
  by_cases hlen : x.length = y.length
  · rw [if_pos hlen]
    have := gtLoop_val x.reverse y.reverse (by simp [hlen])
      (fun d hd => (validDigits_iff x).1 hx d (List.mem_reverse.1 hd))
      (fun d hd => (validDigits_iff y).1 hy d (List.mem_reverse.1 hd))
    simpa [List.reverse_reverse] using this
  · rw [if_neg hlen]
    rcases Nat.lt_or_ge x.length y.length with hsh | hsh
    · have hne : y ≠ [] := by
        intro hnil; rw [hnil] at hsh; simp at hsh
      have hval : toVal x < toVal y :=
        calc toVal x < 10 ^ x.length := toVal_lt_pow x ((validDigits_iff x).1 hx)
          _ ≤ 10 ^ (y.length - 1) := Nat.pow_le_pow_right (by omega) (by omega)
          _ ≤ toVal y := pow_le_toVal_of_canonical y hcy hne
      constructor
      · intro hdec
        rw [decide_eq_true_iff] at hdec
        omega
      · intro hlt
        omega
    · have hgtlen : y.length < x.length := by omega
      have hne : x ≠ [] := by
        intro hnil; rw [hnil] at hgtlen; simp at hgtlen
      have hval : toVal y < toVal x :=
        calc toVal y < 10 ^ y.length := toVal_lt_pow y ((validDigits_iff y).1 hy)
          _ ≤ 10 ^ (x.length - 1) := Nat.pow_le_pow_right (by omega) (by omega)
          _ ≤ toVal x := pow_le_toVal_of_canonical x hcx hne
      simp [decide_eq_true_iff, hgtlen, hval]

theorem ge_val (x y : List Nat) (hx : validDigits x = true)
    (hy : validDigits y = true) (hcx : canonical x = true)
    (hcy : canonical y = true) :
    (ge x y = true ↔ toVal y ≤ toVal x) := by
  have h := gt_val y x hy hx hcy hcx
  constructor
  · intro htrue
    have hfalse : gt y x = false := by
      cases hgyx : gt y x
      · rfl
      · rw [ge, hgyx] at htrue; simp at htrue
    have hnot : ¬ toVal x < toVal y := fun hc => by
      rw [h.2 hc] at hfalse; simp at hfalse
    omega
  · intro hle
    have hfalse : gt y x = false := by
      cases hgyx : gt y x
      · rfl
      · have := h.1 hgyx; omega
    rw [ge, hfalse]
    rfl

theorem le_val (x y : List Nat) (hx : validDigits x = true)
    (hy : validDigits y = true) (hcx : canonical x = true)
    (hcy : canonical y = true) :
    (le x y = true ↔ toVal x ≤ toVal y) := by
  have h := gt_val x y hx hy hcx hcy
  constructor
  · intro htrue
    have hfalse : gt x y = false := by
      cases hgxy : gt x y
      · rfl
      · rw [le, hgxy] at htrue; simp at htrue
    have hnot : ¬ toVal y < toVal x := fun hc => by
      rw [h.2 hc] at hfalse; simp at hfalse
    omega
  · intro hle
    have hfalse : gt x y = false := by
      cases hgxy : gt x y
      · rfl
      · have := h.1 hgxy; omega
    rw [le, hfalse]
    rfl

/-! ## String conversion -/

theorem string_foldl_join : ∀ (l : List String) (acc : String),
    l.foldl (fun a s => a ++ s) acc = acc ++ String.join l := by
  intro l
  induction l with
  | nil => intro acc; simp [String.join]
  | cons s t ih =>
    intro acc
    have hjoin : String.join (s :: t) = s ++ String.join t := by
      show (s :: t).foldl (fun a b => a ++ b) "" = s ++ String.join t
      rw [List.foldl_cons, ih ("" ++ s)]
      simp
    rw [List.foldl_cons, ih (acc ++ s), hjoin, String.append_assoc]

theorem join_cons (s : String) (l : List String) :
    String.join (s :: l) = s ++ String.join l := by
  show (s :: l).foldl (fun a b => a ++ b) "" = s ++ String.join l
  rw [List.foldl_cons, string_foldl_join]
  simp

theorem join_append_singleton : ∀ (l : List String) (s : String),
    String.join (l ++ [s]) = String.join l ++ s := by
  intro l
  induction l with
  | nil =>
    intro s
    show String.join [s] = String.join [] ++ s
    rw [join_cons]
    have h1 : String.join ([] : List String) = "" := rfl
    rw [h1, String.append_empty]
    rfl
  | cons x t ih =>
    intro s
    rw [List.cons_append, join_cons, ih, join_cons, String.append_assoc]

theorem str_spec_aux : ∀ (ds : List Nat) (acc : String),
    ds.foldl (fun s d => Nat.repr d ++ s) acc =
      String.join ((ds.map Nat.repr).reverse) ++ acc := by
  intro ds
  induction ds with
  | nil => intro acc; simp [String.join]
  | cons d t ih =>
    intro acc
    rw [List.foldl_cons, ih (Nat.repr d ++ acc), List.map_cons, List.reverse_cons]
    rw [join_append_singleton, String.append_assoc]

/-! ## Claim theorems (construction, conversion, arithmetic, errors) -/

/-- C4: for every non-negative native integer `v`, constructing a value from
`v` with no digit-count argument and converting it back yields `v`:
`int(BigInt(value=v)) == v`. -/
theorem C4_roundtrip (v : Nat) : toInt (fromInt v none) = v := by
  rw [toInt_eq_toVal, toVal_fromInt_none]

/-- C2: for all non-negative native integers `a` and `b`,
`int(BigInt(value=a) + BigInt(value=b)) == a + b`. -/
theorem C2_add_correct (a b : Nat) :
    toInt (add (fromInt a none) (fromInt b none)) = a + b := by
  rw [toInt_eq_toVal, toVal_add, toVal_fromInt_none, toVal_fromInt_none]

/-- C1: for all non-negative native integers `a` and `b`,
`int(BigInt(value=a) * BigInt(value=b)) == a * b`. -/
theorem C1_mul_correct (a b : Nat) :
    toInt (mul (fromInt a none) (fromInt b none)) = a * b := by
  rw [toInt_eq_toVal, toVal_mul, toVal_fromInt_none, toVal_fromInt_none]

/-- C6: construction from a native integer fails with the
`InvalidArgument`-class error exactly when the value is negative, and
`add_at` fails exactly when the amount is negative; for non-negative inputs
neither operation fails. -/
theorem C6_invalid_argument_iff :
    (∀ (v : Int) (dc : Option Int),
      (∃ e, init v dc = Except.error e) ↔ v < 0) ∧
    (∀ (ds : List Nat) (idx : Nat) (v : Int),
      (∃ e, add_at_checked ds idx v = Except.error e) ↔ v < 0) := by
  constructor
  · intro v dc
    rw [init]
    split_ifs with hneg
    · exact ⟨fun _ => hneg, fun _ => ⟨_, rfl⟩⟩
    · refine ⟨?_, fun habs => absurd habs hneg⟩
      rintro ⟨e, he⟩
      simp at he
  · intro ds idx v
    rw [add_at_checked]
    split_ifs with hneg
    · exact ⟨fun _ => hneg, fun _ => ⟨_, rfl⟩⟩
    · refine ⟨?_, fun habs => absurd habs hneg⟩
      rintro ⟨e, he⟩
      simp at he

/-- Depth bound for the carry recursion: fuel exceeding the final digit
count (relative to the start index) suffices. -/
theorem add_at_fuel_depth : ∀ (fuel : Nat) (ds : List Nat) (idx value : Nat),
    (add_at ds idx value).length + 1 ≤ idx + fuel → 1 ≤ fuel →
    add_at_fuel fuel ds idx value = some (add_at ds idx value) := by
  intro fuel
  induction fuel with
  | zero => intro ds idx value _ h1; omega
  | succ f ih =>
    intro ds idx value hlen _
    by_cases hv : value = 0
    · subst hv
      rw [add_at_zero]
      simp [add_at_fuel]
    · have hstep := add_at_step ds idx value hv
      have hcover : idx < (add_at ds idx value).length :=
        (length_add_at ds idx value).2 hv
      simp only [add_at_fuel, hv, if_false]
      rw [hstep]
      apply ih
      · rw [← hstep]; omega
      · omega

/-- C8: `add_at` terminates for every non-negative index and amount; the
carry recursion reaches amount 0 within a recursion depth bounded by the
final digit count (fuel `final length + 1` returns a result instead of
running out). -/
theorem C8_add_at_terminates (ds : List Nat) (idx value : Nat) :
    add_at_fuel ((add_at ds idx value).length + 1) ds idx value =
      some (add_at ds idx value) := by
  apply add_at_fuel_depth
  · omega
  · omega

/-- C9: the string conversion concatenates the digits from most significant
to least significant with nothing in between, and the canonical zero (empty
store) yields the empty string. -/
theorem C9_str_spec :
    (∀ ds : List Nat, str ds = String.join ((ds.map Nat.repr).reverse)) ∧
    str [] = "" := by
  constructor
  · intro ds
    rw [str, str_spec_aux ds "", String.append_empty]
  · rfl

/-- C7: `x > y` holds iff `x` has strictly more digit cells, or the lengths
are equal and at the most significant differing position `x`'s digit is
larger; equal-length stores with no differing position are not `>` in
either direction. -/
theorem C7_gt_iff (x y : List Nat) :
    gt x y = true ↔
      (y.length < x.length ∨
        (x.length = y.length ∧
          ∃ i, i < x.length ∧ y.getD i 0 < x.getD i 0 ∧
            ∀ j, i < j → j < x.length → x.getD j 0 = y.getD j 0)) := by
  by_cases hlen : x.length = y.length
  · rw [gt, if_pos hlen,
      gtLoop_iff x.reverse y.reverse (by simp [hlen])]
    constructor
    · rintro ⟨k, hk, hdig, hpre⟩
      rw [List.length_reverse] at hk
      right
      refine ⟨hlen, x.length - 1 - k, by omega, ?_, ?_⟩
      · rw [getD_reverse x k hk, getD_reverse y k (by omega)] at hdig
        rw [show y.length - 1 - k = x.length - 1 - k by omega] at hdig
        exact hdig
      · intro j hj1 hj2
        have hk' : x.length - 1 - j < k := by omega
        have := hpre (x.length - 1 - j) hk'
        rw [getD_reverse x _ (by omega), getD_reverse y _ (by omega)] at this
        rw [show x.length - 1 - (x.length - 1 - j) = j by omega] at this
        rw [show y.length - 1 - (x.length - 1 - j) = j by omega] at this
        exact this
    · rintro (habs | ⟨_, i, hi, hdig, hpost⟩)
      · omega
      · refine ⟨x.length - 1 - i, by rw [List.length_reverse]; omega, ?_, ?_⟩
        · rw [getD_reverse x _ (by omega), getD_reverse y _ (by omega)]
          rw [show x.length - 1 - (x.length - 1 - i) = i by omega]
          rw [show y.length - 1 - (x.length - 1 - i) = i by omega]
          exact hdig
        · intro j hj
          rw [getD_reverse x _ (by omega), getD_reverse y _ (by omega)]
          rw [show y.length - 1 - j = x.length - 1 - j by omega]
          exact hpost (x.length - 1 - j) (by omega) (by omega)
  · rw [gt, if_neg hlen]
    simp only [decide_eq_true_iff]
    constructor
    · intro h; exact Or.inl h
    · rintro (h | ⟨habs, _⟩)
      · exact h
      · exact absurd habs hlen

/-- C5 fails as stated: constructing from value 10 with a truncating digit
count of 1 produces the single cell `[0]`, a non-empty store whose most
significant cell is zero. -/
theorem C5_counterexample :
    fromInt 10 (some 1) = [0] ∧ 0 < (fromInt 10 (some 1)).length ∧
      canonical (fromInt 10 (some 1)) = false := by
  have hlog : Nat.log 10 10 = 1 :=
    Nat.log_eq_of_pow_le_of_lt_pow (by norm_num) (by norm_num)
  have heq : fromInt 10 (some 1) = [0] := by
    rw [fromInt, if_neg (by norm_num), hlog]
    norm_num [digitsOf]
  refine ⟨heq, ?_, ?_⟩
  · rw [heq]; decide
  · rw [heq]; rfl

/-- C5 (amended): the arithmetic operations keep values canonical — `add_at`
preserves a non-zero most significant cell, and every value produced by
addition or multiplication has one whenever its length is positive.
Construction from a native integer is excluded: with a truncating digit
count it provably yields a zero most significant cell (see the
counterexample), and even without one the source derives the digit count
from the float `int(math.log10(value))`, which can overcount near a power
of ten (CPython stores `[9]*16 + [0]` for `value = 9999999999999999`) —
that floating-point path is outside this embedding. -/
theorem C5_canonical_amended :
    (∀ (ds : List Nat) (idx value : Nat), canonical ds = true →
      canonical (add_at ds idx value) = true) ∧
    (∀ a b : List Nat, canonical (add a b) = true) ∧
    (∀ a b : List Nat, canonical (mul a b) = true) :=
  ⟨canonical_add_at, canonical_add, canonical_mul⟩

/-- Witness for C5 (amended): the `add_at` clause applied at a concrete
canonical store. -/
theorem C5_witness : canonical (add_at [5] 0 997) = true :=
  C5_canonical_amended.1 [5] 0 997 (by decide)

/-- C10: `add_at` preserves canonical form — if the input store is canonical
(non-zero most significant cell, or empty), so is the store after
`add_at idx value`; in particular when the store grows, the final carry
deposit at the new highest index is non-zero. -/
theorem C10_add_at_canonical (ds : List Nat) (idx value : Nat)
    (h : canonical ds = true) : canonical (add_at ds idx value) = true :=
  canonical_add_at ds idx value h

/-- Witness for C10 at a concrete input that grows the store. -/
theorem C10_witness : canonical [9] = true ∧ canonical (add_at [9] 0 1) = true :=
  ⟨by decide, C10_add_at_canonical [9] 0 1 (by decide)⟩

end BigInt

/-! ## The extremal-product solver -/

namespace MaxProduct

open BigInt

theorem toVal_congr (x y : List Nat) (hlen : x.length = y.length)
    (h : ∀ i, i < x.length → x.getD i 0 = y.getD i 0) : toVal x = toVal y := by
  rw [toVal_eq_sum, toVal_eq_sum, hlen]
  apply Finset.sum_congr rfl
  intro i hi
  rw [h i (by rw [hlen]; exact Finset.mem_range.1 hi)]

theorem toVal_int (x : List Nat) :
    (toVal x : Int) =
      ∑ i ∈ Finset.range x.length, (x.getD i 0 : Int) * 10 ^ i := by
  rw [toVal_eq_sum]
  push_cast
  rfl

theorem pswap_refl (idx : Nat) (a b : List Nat) (hb : b.length = a.length) :
    PSwapFrom idx a b a b :=
  ⟨rfl, hb, fun _ _ => ⟨rfl, rfl⟩, fun _ _ _ => Or.inl ⟨rfl, rfl⟩⟩

theorem pswap_mono (j j' : Nat) (hj : j' ≤ j) (a b c d : List Nat) :
    PSwapFrom j a b c d → PSwapFrom j' a b c d := by
  rintro ⟨h1, h2, h3, h4⟩
  refine ⟨h1, h2, fun i hi => h3 i (by omega), fun i hi hlen => ?_⟩
  rcases Nat.lt_or_ge i j with h | h
  · exact Or.inl (h3 i h)
  · exact h4 i h hlen

theorem pswap_split (idx : Nat) (a b c d : List Nat) (hb : b.length = a.length)
    (hidx : idx < a.length) :
    PSwapFrom idx a b c d ↔
      (PSwapFrom (idx + 1) a b c d ∨
        PSwapFrom (idx + 1) (swapAt a b idx).1 (swapAt a b idx).2 c d) := by
  have hlen1 : (swapAt a b idx).1.length = a.length := by simp [swapAt]
  have hgs1 : (swapAt a b idx).1.getD idx 0 = b.getD idx 0 :=
    getD_set_self a idx _ hidx
  have hgs2 : (swapAt a b idx).2.getD idx 0 = a.getD idx 0 :=
    getD_set_self b idx _ (by omega)
  have hgn1 : ∀ i, i ≠ idx → (swapAt a b idx).1.getD i 0 = a.getD i 0 :=
    fun i hi => getD_set_ne a idx i _ fun hc => hi hc.symm
  have hgn2 : ∀ i, i ≠ idx → (swapAt a b idx).2.getD i 0 = b.getD i 0 :=
    fun i hi => getD_set_ne b idx i _ fun hc => hi hc.symm
  constructor
  · rintro ⟨h1, h2, h3, h4⟩
    rcases h4 idx (Nat.le_refl _) hidx with hkeep | hswap
    · left
      refine ⟨h1, h2, fun i hi => ?_, fun i hi hl => h4 i (by omega) hl⟩
      rcases Nat.lt_or_ge i idx with h | h
      · exact h3 i h
      · have heq : i = idx := by omega
        subst heq
        exact hkeep
    · right
      refine ⟨by rw [h1, hlen1], by rw [h2, hlen1], fun i hi => ?_,
        fun i hi hl => ?_⟩
      · rcases Nat.lt_or_ge i idx with h | h
        · have h3i := h3 i h
          rw [hgn1 i (by omega), hgn2 i (by omega)]
          exact h3i
        · have heq : i = idx := by omega
          subst heq
          rw [hgs1, hgs2]
          exact hswap
      · have hl' : i < a.length := by rw [hlen1] at hl; exact hl
        rcases h4 i (by omega) hl' with hk | hs
        · left
          rw [hgn1 i (by omega), hgn2 i (by omega)]
          exact hk
        · right
          rw [hgn1 i (by omega), hgn2 i (by omega)]
          exact hs
  · rintro (⟨h1, h2, h3, h4⟩ | ⟨h1, h2, h3, h4⟩)
    · refine ⟨h1, h2, fun i hi => h3 i (by omega), fun i hi hl => ?_⟩
      rcases Nat.lt_or_ge i (idx + 1) with h | h
      · have heq : i = idx := by omega
        subst heq
        exact Or.inl (h3 i (by omega))
      · exact h4 i h hl
    · refine ⟨by rw [h1, hlen1], by rw [h2, hlen1], fun i hi => ?_,
        fun i hi hl => ?_⟩
      · have h3i := h3 i (by omega)
        rw [hgn1 i (by omega), hgn2 i (by omega)] at h3i
        exact h3i
      · rcases Nat.lt_or_ge i (idx + 1) with h | h
        · have heq : i = idx := by omega
          subst heq
          have h3i := h3 i (by omega)
          rw [hgs1, hgs2] at h3i
          exact Or.inr h3i
        · have hl' : i < (swapAt a b idx).1.length := by rw [hlen1]; exact hl
          rcases h4 i h hl' with hk | hs
          · rw [hgn1 i (by omega), hgn2 i (by omega)] at hk
            exact Or.inl hk
          · rw [hgn1 i (by omega), hgn2 i (by omega)] at hs
            exact Or.inr hs

theorem pswap_sum (a b c d : List Nat) (hb : b.length = a.length)
    (h : PSwapFrom 0 a b c d) : toVal c + toVal d = toVal a + toVal b := by
  obtain ⟨h1, h2, _, h4⟩ := h
  have key : ∀ x : List Nat, x.length = a.length →
      toVal x = ∑ i ∈ Finset.range a.length, x.getD i 0 * 10 ^ i :=
    fun x hx => by rw [toVal_eq_sum, hx]
  rw [key c h1, key d h2, key a rfl, key b hb,
    ← Finset.sum_add_distrib, ← Finset.sum_add_distrib]
  apply Finset.sum_congr rfl
  intro i hi
  have hi' : i < a.length := Finset.mem_range.1 hi
  rcases h4 i (by omega) hi' with ⟨hc, hd⟩ | ⟨hc, hd⟩
  · rw [hc, hd]
  · rw [hc, hd]
    ring

/-! ### Unfolding the brute-force recursion -/

theorem bruteAux_max_true (k : Nat) (a b : List Nat)
    (h : ge (bruteAux k a b).p_max
      (bruteAux k (swapAt a b (a.length - (k + 1))).1
        (swapAt a b (a.length - (k + 1))).2).p_max = true) :
    (bruteAux (k + 1) a b).c_max = (bruteAux k a b).c_max ∧
    (bruteAux (k + 1) a b).d_max = (bruteAux k a b).d_max ∧
    (bruteAux (k + 1) a b).p_max = (bruteAux k a b).p_max := by
  refine ⟨?_, ?_, ?_⟩ <;> simp only [bruteAux, h, if_true]

theorem bruteAux_max_false (k : Nat) (a b : List Nat)
    (h : ge (bruteAux k a b).p_max
      (bruteAux k (swapAt a b (a.length - (k + 1))).1
        (swapAt a b (a.length - (k + 1))).2).p_max = false) :
    (bruteAux (k + 1) a b).c_max =
      (bruteAux k (swapAt a b (a.length - (k + 1))).1
        (swapAt a b (a.length - (k + 1))).2).c_max ∧
    (bruteAux (k + 1) a b).d_max =
      (bruteAux k (swapAt a b (a.length - (k + 1))).1
        (swapAt a b (a.length - (k + 1))).2).d_max ∧
    (bruteAux (k + 1) a b).p_max =
      (bruteAux k (swapAt a b (a.length - (k + 1))).1
        (swapAt a b (a.length - (k + 1))).2).p_max := by
  refine ⟨?_, ?_, ?_⟩ <;> simp only [bruteAux, h, Bool.false_eq_true, if_false]

theorem bruteAux_min_true (k : Nat) (a b : List Nat)
    (h : le (bruteAux k a b).p_min
      (bruteAux k (swapAt a b (a.length - (k + 1))).1
        (swapAt a b (a.length - (k + 1))).2).p_min = true) :
    (bruteAux (k + 1) a b).c_min = (bruteAux k a b).c_min ∧
    (bruteAux (k + 1) a b).d_min = (bruteAux k a b).d_min ∧
    (bruteAux (k + 1) a b).p_min = (bruteAux k a b).p_min := by
  refine ⟨?_, ?_, ?_⟩ <;> simp only [bruteAux, h, if_true]

theorem bruteAux_min_false (k : Nat) (a b : List Nat)
    (h : le (bruteAux k a b).p_min
      (bruteAux k (swapAt a b (a.length - (k + 1))).1
        (swapAt a b (a.length - (k + 1))).2).p_min = false) :
    (bruteAux (k + 1) a b).c_min =
      (bruteAux k (swapAt a b (a.length - (k + 1))).1
        (swapAt a b (a.length - (k + 1))).2).c_min ∧
    (bruteAux (k + 1) a b).d_min =
      (bruteAux k (swapAt a b (a.length - (k + 1))).1
        (swapAt a b (a.length - (k + 1))).2).d_min ∧
    (bruteAux (k + 1) a b).p_min =
      (bruteAux k (swapAt a b (a.length - (k + 1))).1
        (swapAt a b (a.length - (k + 1))).2).p_min := by
  refine ⟨?_, ?_, ?_⟩ <;> simp only [bruteAux, h, Bool.false_eq_true, if_false]

/-- Combining the two branches of the brute-force search: the `>=` test
keeps a reachable outcome that dominates every outcome from index `idx` on. -/
theorem brute_combine_max (a b x1 y1 p1 x2 y2 p2 : List Nat) (idx : Nat)
    (hb : b.length = a.length) (hidx : idx < a.length)
    (h1 : PSwapFrom (idx + 1) a b x1 y1) (hp1 : p1 = mul x1 y1)
    (h2 : PSwapFrom (idx + 1) (swapAt a b idx).1 (swapAt a b idx).2 x2 y2)
    (hp2 : p2 = mul x2 y2)
    (o1 : ∀ c d, PSwapFrom (idx + 1) a b c d → toVal (mul c d) ≤ toVal p1)
    (o2 : ∀ c d, PSwapFrom (idx + 1) (swapAt a b idx).1 (swapAt a b idx).2 c d →
      toVal (mul c d) ≤ toVal p2) :
    (ge p1 p2 = true →
      PSwapFrom idx a b x1 y1 ∧
      ∀ c d, PSwapFrom idx a b c d → toVal (mul c d) ≤ toVal p1) ∧
    (ge p1 p2 = false →
      PSwapFrom idx a b x2 y2 ∧
      ∀ c d, PSwapFrom idx a b c d → toVal (mul c d) ≤ toVal p2) := by
  have hgood := ge_val p1 p2 (by rw [hp1]; exact validDigits_mul _ _)
    (by rw [hp2]; exact validDigits_mul _ _)
    (by rw [hp1]; exact canonical_mul _ _)
    (by rw [hp2]; exact canonical_mul _ _)
  constructor
  · intro hge
    have h21 : toVal p2 ≤ toVal p1 := hgood.1 hge
    refine ⟨(pswap_split idx a b x1 y1 hb hidx).2 (Or.inl h1), ?_⟩
    intro c d hcd
    rcases (pswap_split idx a b c d hb hidx).1 hcd with hl | hr
    · exact o1 c d hl
    · exact le_trans (o2 c d hr) h21
  · intro hge
    have h12 : toVal p1 ≤ toVal p2 := by
      have : ¬ (ge p1 p2 = true) := by rw [hge]; simp
      rw [hgood] at this
      omega
    refine ⟨(pswap_split idx a b x2 y2 hb hidx).2 (Or.inr h2), ?_⟩
    intro c d hcd
    rcases (pswap_split idx a b c d hb hidx).1 hcd with hl | hr
    · exact le_trans (o1 c d hl) h12
    · exact o2 c d hr

/-- The `<=` counterpart for the minimum. -/
theorem brute_combine_min (a b x1 y1 p1 x2 y2 p2 : List Nat) (idx : Nat)
    (hb : b.length = a.length) (hidx : idx < a.length)
    (h1 : PSwapFrom (idx + 1) a b x1 y1) (hp1 : p1 = mul x1 y1)
    (h2 : PSwapFrom (idx + 1) (swapAt a b idx).1 (swapAt a b idx).2 x2 y2)
    (hp2 : p2 = mul x2 y2)
    (o1 : ∀ c d, PSwapFrom (idx + 1) a b c d → toVal p1 ≤ toVal (mul c d))
    (o2 : ∀ c d, PSwapFrom (idx + 1) (swapAt a b idx).1 (swapAt a b idx).2 c d →
      toVal p2 ≤ toVal (mul c d)) :
    (le p1 p2 = true →
      PSwapFrom idx a b x1 y1 ∧
      ∀ c d, PSwapFrom idx a b c d → toVal p1 ≤ toVal (mul c d)) ∧
    (le p1 p2 = false →
      PSwapFrom idx a b x2 y2 ∧
      ∀ c d, PSwapFrom idx a b c d → toVal p2 ≤ toVal (mul c d)) := by
  have hgood := le_val p1 p2 (by rw [hp1]; exact validDigits_mul _ _)
    (by rw [hp2]; exact validDigits_mul _ _)
    (by rw [hp1]; exact canonical_mul _ _)
    (by rw [hp2]; exact canonical_mul _ _)
  constructor
  · intro hle
    have h12 : toVal p1 ≤ toVal p2 := hgood.1 hle
    refine ⟨(pswap_split idx a b x1 y1 hb hidx).2 (Or.inl h1), ?_⟩
    intro c d hcd
    rcases (pswap_split idx a b c d hb hidx).1 hcd with hl | hr
    · exact o1 c d hl
    · exact le_trans h12 (o2 c d hr)
  · intro hle
    have h21 : toVal p2 ≤ toVal p1 := by
      have : ¬ (le p1 p2 = true) := by rw [hle]; simp
      rw [hgood] at this
      omega
    refine ⟨(pswap_split idx a b x2 y2 hb hidx).2 (Or.inr h2), ?_⟩
    intro c d hcd
    rcases (pswap_split idx a b c d hb hidx).1 hcd with hl | hr
    · exact le_trans h21 (o1 c d hl)
    · exact o2 c d hr

/-- Full specification of the brute-force search with `k` positions left:
the returned maximal (minimal) pair is a reachable swap outcome, its product
field is the pair's product, and its product dominates (is dominated by)
every reachable outcome. -/
theorem bruteAux_spec : ∀ (k : Nat) (a b : List Nat), b.length = a.length →
    k ≤ a.length →
    (PSwapFrom (a.length - k) a b (bruteAux k a b).c_max (bruteAux k a b).d_max ∧
      (bruteAux k a b).p_max = mul (bruteAux k a b).c_max (bruteAux k a b).d_max ∧
      PSwapFrom (a.length - k) a b (bruteAux k a b).c_min (bruteAux k a b).d_min ∧
      (bruteAux k a b).p_min = mul (bruteAux k a b).c_min (bruteAux k a b).d_min) ∧
    (∀ c d : List Nat, PSwapFrom (a.length - k) a b c d →
      toVal (mul c d) ≤ toVal (bruteAux k a b).p_max) ∧
    (∀ c d : List Nat, PSwapFrom (a.length - k) a b c d →
      toVal (bruteAux k a b).p_min ≤ toVal (mul c d)) := by
  intro k
  induction k with
  | zero =>
    intro a b hb _
    simp only [bruteAux, Nat.sub_zero]
    refine ⟨⟨pswap_refl _ a b hb, by trivial, pswap_refl _ a b hb, by trivial⟩, ?_, ?_⟩
    · intro c d hcd
      obtain ⟨h1, h2, h3, _⟩ := hcd
      have hc : toVal c = toVal a := toVal_congr c a h1 fun i hi => (h3 i (by omega)).1
      have hd : toVal d = toVal b := toVal_congr d b (by omega) fun i hi =>
        (h3 i (by omega)).2
      rw [toVal_mul, toVal_mul, hc, hd]
    · intro c d hcd
      obtain ⟨h1, h2, h3, _⟩ := hcd
      have hc : toVal c = toVal a := toVal_congr c a h1 fun i hi => (h3 i (by omega)).1
      have hd : toVal d = toVal b := toVal_congr d b (by omega) fun i hi =>
        (h3 i (by omega)).2
      rw [toVal_mul, toVal_mul, hc, hd]
  | succ k ih =>
    intro a b hb hk
    have hidx : a.length - (k + 1) < a.length := by omega
    have hs1len : (swapAt a b (a.length - (k + 1))).1.length = a.length := by
      simp [swapAt]
    have hs2len : (swapAt a b (a.length - (k + 1))).2.length =
        (swapAt a b (a.length - (k + 1))).1.length := by
      simp [swapAt, hb]
    have ih1 := ih a b hb (by omega)
    have ih2 := ih (swapAt a b (a.length - (k + 1))).1
      (swapAt a b (a.length - (k + 1))).2 hs2len (by rw [hs1len]; omega)
    have e1 : a.length - k = a.length - (k + 1) + 1 := by omega
    have e2 : (swapAt a b (a.length - (k + 1))).1.length - k =
        a.length - (k + 1) + 1 := by rw [hs1len]; omega
    rw [e1] at ih1
    rw [e2] at ih2
    obtain ⟨⟨m1p, m1e, m1pm, m1em⟩, o1max, o1min⟩ := ih1
    obtain ⟨⟨m2p, m2e, m2pm, m2em⟩, o2max, o2min⟩ := ih2
    have hcmax := brute_combine_max a b _ _ _ _ _ _ (a.length - (k + 1)) hb hidx
      m1p m1e m2p m2e o1max o2max
    have hcmin := brute_combine_min a b _ _ _ _ _ _ (a.length - (k + 1)) hb hidx
      m1pm m1em m2pm m2em o1min o2min
    have hmax : PSwapFrom (a.length - (k + 1)) a b
        (bruteAux (k + 1) a b).c_max (bruteAux (k + 1) a b).d_max ∧
        (bruteAux (k + 1) a b).p_max =
          mul (bruteAux (k + 1) a b).c_max (bruteAux (k + 1) a b).d_max ∧
        ∀ c d : List Nat, PSwapFrom (a.length - (k + 1)) a b c d →
          toVal (mul c d) ≤ toVal (bruteAux (k + 1) a b).p_max := by
      cases hge : ge (bruteAux k a b).p_max
        (bruteAux k (swapAt a b (a.length - (k + 1))).1
          (swapAt a b (a.length - (k + 1))).2).p_max with
      | false =>
        obtain ⟨ec, ed, ep⟩ := bruteAux_max_false k a b hge
        rw [ec, ed, ep]
        exact ⟨(hcmax.2 hge).1, m2e, (hcmax.2 hge).2⟩
      | true =>
        obtain ⟨ec, ed, ep⟩ := bruteAux_max_true k a b hge
        rw [ec, ed, ep]
        exact ⟨(hcmax.1 hge).1, m1e, (hcmax.1 hge).2⟩
    have hmin : PSwapFrom (a.length - (k + 1)) a b
        (bruteAux (k + 1) a b).c_min (bruteAux (k + 1) a b).d_min ∧
        (bruteAux (k + 1) a b).p_min =
          mul (bruteAux (k + 1) a b).c_min (bruteAux (k + 1) a b).d_min ∧
        ∀ c d : List Nat, PSwapFrom (a.length - (k + 1)) a b c d →
          toVal (bruteAux (k + 1) a b).p_min ≤ toVal (mul c d) := by
      cases hle : le (bruteAux k a b).p_min
        (bruteAux k (swapAt a b (a.length - (k + 1))).1
          (swapAt a b (a.length - (k + 1))).2).p_min with
      | false =>
        obtain ⟨ec, ed, ep⟩ := bruteAux_min_false k a b hle
        rw [ec, ed, ep]
        exact ⟨(hcmin.2 hle).1, m2em, (hcmin.2 hle).2⟩
      | true =>
        obtain ⟨ec, ed, ep⟩ := bruteAux_min_true k a b hle
        rw [ec, ed, ep]
        exact ⟨(hcmin.1 hle).1, m1em, (hcmin.1 hle).2⟩
    exact ⟨⟨hmax.1, hmax.2.1, hmin.1, hmin.2.1⟩, hmax.2.2, hmin.2.2⟩

/-! ### The greedy maximization loop -/

theorem maxLoop_inv (a b : List Nat) : ∀ (p : Nat) (c d : List Nat) (fd : Bool),
    p ≤ a.length → MaxInv a b p c d fd →
    MaxInv a b 0 (maxLoop p c d fd).1 (maxLoop p c d fd).2.1
      (maxLoop p c d fd).2.2 := by
  intro p
  induction p with
  | zero => intro c d fd _ h; exact h
  | succ p ih =>
    intro c d fd hp hinv
    obtain ⟨hlc, hld, hbelow, hf, ht⟩ := hinv
    have hplen : p < a.length := by omega
    have hpc : p < c.length := by omega
    have hpd : p < d.length := by omega
    have hcp : c.getD p 0 = a.getD p 0 := (hbelow p (by omega)).1
    have hdp : d.getD p 0 = b.getD p 0 := (hbelow p (by omega)).2
    have hstep : maxLoop (p + 1) c d fd =
        (if (!fd && (c.getD p 0 != d.getD p 0) &&
              decide (c.getD p 0 < d.getD p 0)) ||
            (fd && decide (c.getD p 0 > d.getD p 0))
          then maxLoop p (c.set p (d.getD p 0)) (d.set p (c.getD p 0))
            (fd || ((c.set p (d.getD p 0)).getD p 0 !=
              (d.set p (c.getD p 0)).getD p 0))
          else maxLoop p c d (fd || (c.getD p 0 != d.getD p 0))) := rfl
    rw [hstep, hcp, hdp]
    cases fd with
    | false =>
      simp only [Bool.not_false, Bool.true_and, Bool.false_and, Bool.or_false,
        Bool.false_or]
      split_ifs with hcond
      · -- first difference found, `a`'s digit smaller: swap, flag turns on
        simp only [Bool.and_eq_true, bne_iff_ne, ne_eq, decide_eq_true_eq]
          at hcond
        obtain ⟨hab, hlt⟩ := hcond
        have hc' : (c.set p (b.getD p 0)).getD p 0 = b.getD p 0 :=
          getD_set_self c p _ hpc
        have hd' : (d.set p (a.getD p 0)).getD p 0 = a.getD p 0 :=
          getD_set_self d p _ hpd
        have hfd' : ((c.set p (b.getD p 0)).getD p 0 !=
            (d.set p (a.getD p 0)).getD p 0) = true := by
          rw [hc', hd']
          simp only [bne_iff_ne, ne_eq]
          omega
        rw [hfd']
        apply ih _ _ _ (by omega)
        refine ⟨by simp [hlc], by simp [hld], ?_, by simp, fun _ => ?_⟩
        · intro i hi
          rw [getD_set_ne c p i _ (by omega), getD_set_ne d p i _ (by omega)]
          exact hbelow i (by omega)
        · refine ⟨p, Nat.le_refl _, hplen, hab, ?_, ?_, ?_, ?_, ?_⟩
          · intro i hpi hil
            exact (hf rfl).1 i (by omega) hil
          · intro i hpi hil
            rw [getD_set_ne c p i _ (by omega), getD_set_ne d p i _ (by omega)]
            exact (hf rfl).2 i (by omega) hil
          · rw [hc', Nat.max_eq_right (Nat.le_of_lt hlt)]
          · rw [hd', Nat.min_eq_left (Nat.le_of_lt hlt)]
          · intro i h1 h2
            omega
      · -- no swap; the flag records whether this pair differs
        by_cases hab : a.getD p 0 = b.getD p 0
        · have hfd' : (a.getD p 0 != b.getD p 0) = false := by
            rw [hab, bne_self_eq_false]
          rw [hfd']
          apply ih _ _ _ (by omega)
          refine ⟨hlc, hld, fun i hi => hbelow i (by omega), fun _ => ?_,
            by simp⟩
          constructor
          · intro i hpi hil
            rcases Nat.lt_or_ge i (p + 1) with h | h
            · have heq : i = p := by omega
              subst heq
              exact hab
            · exact (hf rfl).1 i (by omega) hil
          · intro i hpi hil
            rcases Nat.lt_or_ge i (p + 1) with h | h
            · have heq : i = p := by omega
              subst heq
              exact ⟨hcp, hdp⟩
            · exact (hf rfl).2 i (by omega) hil
        · -- differing pair with `a`'s digit larger: kept as is, flag on
          have hgt : b.getD p 0 < a.getD p 0 := by
            simp only [Bool.and_eq_true, bne_iff_ne, ne_eq, decide_eq_true_eq,
              not_and] at hcond
            have := hcond hab
            omega
          have hfd' : (a.getD p 0 != b.getD p 0) = true := by
            rw [bne_iff_ne]
            exact hab
          rw [hfd']
          apply ih _ _ _ (by omega)
          refine ⟨hlc, hld, fun i hi => hbelow i (by omega), by simp,
            fun _ => ?_⟩
          refine ⟨p, Nat.le_refl _, hplen, hab, ?_, ?_, ?_, ?_, ?_⟩
          · intro i hpi hil
            exact (hf rfl).1 i (by omega) hil
          · intro i hpi hil
            exact (hf rfl).2 i (by omega) hil
          · rw [hcp, Nat.max_eq_left (Nat.le_of_lt hgt)]
          · rw [hdp, Nat.min_eq_right (Nat.le_of_lt hgt)]
          · intro i h1 h2
            omega
    | true =>
      simp only [Bool.not_true, Bool.false_and, Bool.false_or, Bool.true_and,
        Bool.true_or]
      obtain ⟨k, hpk, hkl, hkab, habove, hcdabove, hckmax, hdkmin, hbetween⟩ :=
        ht rfl
      split_ifs with hcond
      · -- `a`'s digit larger after the first difference: swap it away
        rw [decide_eq_true_eq] at hcond
        apply ih _ _ _ (by omega)
        refine ⟨by simp [hlc], by simp [hld], ?_, by simp, fun _ => ?_⟩
        · intro i hi
          rw [getD_set_ne c p i _ (by omega), getD_set_ne d p i _ (by omega)]
          exact hbelow i (by omega)
        · have hkp : p < k := by omega
          refine ⟨k, by omega, hkl, hkab, habove, ?_, ?_, ?_, ?_⟩
          · intro i hki hil
            rw [getD_set_ne c p i _ (by omega), getD_set_ne d p i _ (by omega)]
            exact hcdabove i hki hil
          · rw [getD_set_ne c p k _ (by omega)]
            exact hckmax
          · rw [getD_set_ne d p k _ (by omega)]
            exact hdkmin
          · intro i h1 h2
            rcases Nat.lt_or_ge i (p + 1) with h | h
            · have heq : i = p := by omega
              subst heq
              rw [getD_set_self c i _ hpc, getD_set_self d i _ hpd]
              constructor
              · rw [Nat.min_eq_right (Nat.le_of_lt hcond)]
              · rw [Nat.max_eq_left (Nat.le_of_lt hcond)]
            · rw [getD_set_ne c p i _ (by omega), getD_set_ne d p i _ (by omega)]
              exact hbetween i (by omega) h2
      · -- `a`'s digit not larger: already the smaller one, keep
        rw [decide_eq_true_eq, Nat.not_lt] at hcond
        apply ih _ _ _ (by omega)
        refine ⟨hlc, hld, fun i hi => hbelow i (by omega), by simp, fun _ => ?_⟩
        have hkp : p < k := by omega
        refine ⟨k, by omega, hkl, hkab, habove, hcdabove, hckmax, hdkmin, ?_⟩
        intro i h1 h2
        rcases Nat.lt_or_ge i (p + 1) with h | h
        · have heq : i = p := by omega
          subst heq
          constructor
          · rw [hcp, Nat.min_eq_left hcond]
          · rw [hdp, Nat.max_eq_right hcond]
        · exact hbetween i (by omega) h2

/-! ### The greedy minimization loop -/

theorem minLoop_inv (a b : List Nat) : ∀ (p : Nat) (c d : List Nat),
    p ≤ a.length → MinInv a b p c d →
    MinInv a b 0 (minLoop p c d).1 (minLoop p c d).2 := by
  intro p
  induction p with
  | zero => intro c d _ h; exact h
  | succ p ih =>
    intro c d hp hinv
    obtain ⟨hlc, hld, hbelow, habove⟩ := hinv
    have hplen : p < a.length := by omega
    have hpc : p < c.length := by omega
    have hpd : p < d.length := by omega
    have hcp : c.getD p 0 = a.getD p 0 := (hbelow p (by omega)).1
    have hdp : d.getD p 0 = b.getD p 0 := (hbelow p (by omega)).2
    have hstep : minLoop (p + 1) c d =
        (if c.getD p 0 < d.getD p 0
          then minLoop p (c.set p (d.getD p 0)) (d.set p (c.getD p 0))
          else minLoop p c d) := rfl
    rw [hstep, hcp, hdp]
    split_ifs with hcond
    · apply ih _ _ (by omega)
      refine ⟨by simp [hlc], by simp [hld], ?_, ?_⟩
      · intro i hi
        rw [getD_set_ne c p i _ (by omega), getD_set_ne d p i _ (by omega)]
        exact hbelow i (by omega)
      · intro i h1 h2
        rcases Nat.lt_or_ge i (p + 1) with h | h
        · have heq : i = p := by omega
          subst heq
          rw [getD_set_self c i _ hpc, getD_set_self d i _ hpd]
          constructor
          · rw [Nat.max_eq_right (Nat.le_of_lt hcond)]
          · rw [Nat.min_eq_left (Nat.le_of_lt hcond)]
        · rw [getD_set_ne c p i _ (by omega), getD_set_ne d p i _ (by omega)]
          exact habove i (by omega) h2
    · apply ih _ _ (by omega)
      refine ⟨hlc, hld, fun i hi => hbelow i (by omega), ?_⟩
      intro i h1 h2
      rcases Nat.lt_or_ge i (p + 1) with h | h
      · have heq : i = p := by omega
        subst heq
        constructor
        · rw [hcp, Nat.max_eq_left (by omega)]
        · rw [hdp, Nat.min_eq_right (by omega)]
      · exact habove i (by omega) h2

/-! ### Integer arithmetic for the optimality arguments -/

theorem diff_abs_max_min (x y : Nat) :
    ((max x y : Nat) : Int) - ((min x y : Nat) : Int) = |(x : Int) - (y : Int)| := by
  rcases Nat.le_total x y with h | h
  · rw [Nat.max_eq_right h, Nat.min_eq_left h, abs_sub_comm,
      abs_of_nonneg (sub_nonneg.2 (by exact_mod_cast h))]
  · rw [Nat.max_eq_left h, Nat.min_eq_right h,
      abs_of_nonneg (sub_nonneg.2 (by exact_mod_cast h))]

theorem nine_geom (k : Nat) :
    ∑ i ∈ Finset.range k, (9 : Int) * 10 ^ i = 10 ^ k - 1 := by
  induction k with
  | zero => simp
  | succ m ih =>
    rw [Finset.sum_range_succ, ih]
    ring

/-- With the sum of the two factors fixed, the pair whose (integer)
difference has the smaller absolute value has the larger product. -/
theorem prod_le_of_diff (c d C D : Nat) (hsum : c + d = C + D)
    (hdiff : |(C : Int) - (D : Int)| ≤ |(c : Int) - (d : Int)|) :
    c * d ≤ C * D := by
  have hs : (c : Int) + d = (C : Int) + D := by exact_mod_cast hsum
  have h2 : ((C : Int) - D) ^ 2 ≤ ((c : Int) - d) ^ 2 := by
    rw [← sq_abs ((C : Int) - D), ← sq_abs ((c : Int) - d)]
    exact pow_le_pow_left₀ (abs_nonneg _) hdiff 2
  have e1 : 4 * ((c : Int) * d) = ((C : Int) + D) ^ 2 - ((c : Int) - d) ^ 2 := by
    rw [← hs]; ring
  have e2 : 4 * ((C : Int) * D) = ((C : Int) + D) ^ 2 - ((C : Int) - D) ^ 2 := by
    ring
  have hle : (c : Int) * d ≤ (C : Int) * D := by linarith
  exact_mod_cast hle

/-- The difference of the values of two equal-length stores, positionwise. -/
theorem diff_sum (x y : List Nat) (n : Nat) (hx : x.length = n)
    (hy : y.length = n) :
    (toVal x : Int) - (toVal y : Int) =
      ∑ i ∈ Finset.range n, ((x.getD i 0 : Int) - (y.getD i 0 : Int)) * 10 ^ i := by
  rw [toVal_int, toVal_int, hx, hy, ← Finset.sum_sub_distrib]
  apply Finset.sum_congr rfl
  intro i _
  ring

theorem getD_lt_ten (x : List Nat) (hx : validDigits x = true) (i : Nat) :
    x.getD i 0 < 10 := by
  rcases Nat.lt_or_ge i x.length with h | h
  · rw [List.getD_eq_getElem _ _ h]
    exact (validDigits_iff x).1 hx _ (List.getElem_mem h)
  · rw [List.getD_eq_default _ _ h]
    omega

theorem abs_digit_diff_le (a b : List Nat) (va : validDigits a = true)
    (vb : validDigits b = true) (i : Nat) :
    |(a.getD i 0 : Int) - (b.getD i 0 : Int)| ≤ 9 := by
  have h1 := getD_lt_ten a va i
  have h2 := getD_lt_ten b vb i
  rw [abs_le]
  constructor <;> omega

theorem diff_T_bound (a b : List Nat) (va : validDigits a = true)
    (vb : validDigits b = true) (k : Nat) :
    ∑ i ∈ Finset.range k, |(a.getD i 0 : Int) - (b.getD i 0 : Int)| * 10 ^ i ≤
      10 ^ k - 1 := by
  calc ∑ i ∈ Finset.range k, |(a.getD i 0 : Int) - (b.getD i 0 : Int)| * 10 ^ i
      ≤ ∑ i ∈ Finset.range k, (9 : Int) * 10 ^ i := by
        apply Finset.sum_le_sum
        intro i _
        exact mul_le_mul_of_nonneg_right (abs_digit_diff_le a b va vb i)
          (by positivity)
    _ = 10 ^ k - 1 := nine_geom k

/-- Value difference of the greedy maximizer: the most significant
differing position contributes positively, every lower position negatively. -/
theorem greedy_max_diff (a b C D : List Nat) (hC : C.length = a.length)
    (hD : D.length = a.length) (k : Nat) (hk : k < a.length)
    (habove : ∀ i, k < i → i < a.length → a.getD i 0 = b.getD i 0)
    (hCDabove : ∀ i, k < i → i < a.length →
      C.getD i 0 = a.getD i 0 ∧ D.getD i 0 = b.getD i 0)
    (hCk : C.getD k 0 = max (a.getD k 0) (b.getD k 0))
    (hDk : D.getD k 0 = min (a.getD k 0) (b.getD k 0))
    (hbet : ∀ i, i < k → C.getD i 0 = min (a.getD i 0) (b.getD i 0) ∧
      D.getD i 0 = max (a.getD i 0) (b.getD i 0)) :
    (toVal C : Int) - (toVal D : Int) =
      |(a.getD k 0 : Int) - (b.getD k 0 : Int)| * 10 ^ k -
        ∑ i ∈ Finset.range k, |(a.getD i 0 : Int) - (b.getD i 0 : Int)| * 10 ^ i := by
  rw [diff_sum C D a.length hC hD]
  have hsub : Finset.range (k + 1) ⊆ Finset.range a.length :=
    Finset.range_subset.2 (by omega)
  have hv : ∀ i ∈ Finset.range a.length, i ∉ Finset.range (k + 1) →
      ((C.getD i 0 : Int) - (D.getD i 0 : Int)) * 10 ^ i = 0 := by
    intro i hi hni
    have hik : k < i := by
      simp only [Finset.mem_range] at hni
      omega
    have hin : i < a.length := Finset.mem_range.1 hi
    rw [(hCDabove i hik hin).1, (hCDabove i hik hin).2, habove i hik hin]
    ring
  rw [← Finset.sum_subset hsub hv, Finset.sum_range_succ]
  have hterm : ((C.getD k 0 : Int) - (D.getD k 0 : Int)) * 10 ^ k =
      |(a.getD k 0 : Int) - (b.getD k 0 : Int)| * 10 ^ k := by
    rw [hCk, hDk, diff_abs_max_min]
  have hbel : ∑ i ∈ Finset.range k, ((C.getD i 0 : Int) - (D.getD i 0 : Int)) * 10 ^ i =
      -∑ i ∈ Finset.range k, |(a.getD i 0 : Int) - (b.getD i 0 : Int)| * 10 ^ i := by
    rw [← Finset.sum_neg_distrib]
    apply Finset.sum_congr rfl
    intro i hi
    obtain ⟨hc, hd⟩ := hbet i (Finset.mem_range.1 hi)
    rw [hc, hd]
    have habs := diff_abs_max_min (a.getD i 0) (b.getD i 0)
    have hmm : ((min (a.getD i 0) (b.getD i 0) : Nat) : Int) -
        ((max (a.getD i 0) (b.getD i 0) : Nat) : Int) =
        -|(a.getD i 0 : Int) - (b.getD i 0 : Int)| := by linarith
    rw [hmm]
    ring
  rw [hterm, hbel]
  ring

/-- Lower bound on the value difference of every reachable swap outcome. -/
theorem pswap_diff_bound (a b c d : List Nat) (_hb : b.length = a.length)
    (hpsw : PSwapFrom 0 a b c d) (k : Nat) (hk : k < a.length)
    (habove : ∀ i, k < i → i < a.length → a.getD i 0 = b.getD i 0) :
    |(a.getD k 0 : Int) - (b.getD k 0 : Int)| * 10 ^ k -
      ∑ i ∈ Finset.range k, |(a.getD i 0 : Int) - (b.getD i 0 : Int)| * 10 ^ i ≤
    |(toVal c : Int) - (toVal d : Int)| := by
  obtain ⟨h1, h2, _, h4⟩ := hpsw
  rw [diff_sum c d a.length h1 h2]
  have hsub : Finset.range (k + 1) ⊆ Finset.range a.length :=
    Finset.range_subset.2 (by omega)
  have hv : ∀ i ∈ Finset.range a.length, i ∉ Finset.range (k + 1) →
      ((c.getD i 0 : Int) - (d.getD i 0 : Int)) * 10 ^ i = 0 := by
    intro i hi hni
    have hik : k < i := by
      simp only [Finset.mem_range] at hni
      omega
    have hin : i < a.length := Finset.mem_range.1 hi
    have heq := habove i hik hin
    rcases h4 i (by omega) hin with ⟨hc, hd⟩ | ⟨hc, hd⟩
    · rw [hc, hd, heq]; ring
    · rw [hc, hd, heq]; ring
  rw [← Finset.sum_subset hsub hv, Finset.sum_range_succ]
  have habsk : |(c.getD k 0 : Int) - (d.getD k 0 : Int)| =
      |(a.getD k 0 : Int) - (b.getD k 0 : Int)| := by
    rcases h4 k (by omega) hk with ⟨hc, hd⟩ | ⟨hc, hd⟩
    · rw [hc, hd]
    · rw [hc, hd, abs_sub_comm]
  have hR : |∑ i ∈ Finset.range k, ((c.getD i 0 : Int) - (d.getD i 0 : Int)) * 10 ^ i| ≤
      ∑ i ∈ Finset.range k, |(a.getD i 0 : Int) - (b.getD i 0 : Int)| * 10 ^ i := by
    calc |∑ i ∈ Finset.range k, ((c.getD i 0 : Int) - (d.getD i 0 : Int)) * 10 ^ i|
        ≤ ∑ i ∈ Finset.range k, |((c.getD i 0 : Int) - (d.getD i 0 : Int)) * 10 ^ i| :=
          Finset.abs_sum_le_sum_abs _ _
      _ = ∑ i ∈ Finset.range k, |(a.getD i 0 : Int) - (b.getD i 0 : Int)| * 10 ^ i := by
          apply Finset.sum_congr rfl
          intro i hi
          have hin : i < a.length := by
            have := Finset.mem_range.1 hi
            omega
          rw [abs_mul, abs_of_nonneg (show (0 : Int) ≤ 10 ^ i by positivity)]
          rcases h4 i (by omega) hin with ⟨hc, hd⟩ | ⟨hc, hd⟩
          · rw [hc, hd]
          · rw [hc, hd, abs_sub_comm]
  have hterm : |((c.getD k 0 : Int) - (d.getD k 0 : Int)) * 10 ^ k| =
      |(a.getD k 0 : Int) - (b.getD k 0 : Int)| * 10 ^ k := by
    rw [abs_mul, abs_of_nonneg (show (0 : Int) ≤ 10 ^ k by positivity), habsk]
  have htri := abs_sub_abs_le_abs_sub
    (((c.getD k 0 : Int) - (d.getD k 0 : Int)) * 10 ^ k)
    (-∑ i ∈ Finset.range k, ((c.getD i 0 : Int) - (d.getD i 0 : Int)) * 10 ^ i)
  rw [abs_neg, sub_neg_eq_add] at htri
  have hcomm : ((c.getD k 0 : Int) - (d.getD k 0 : Int)) * 10 ^ k +
      ∑ i ∈ Finset.range k, ((c.getD i 0 : Int) - (d.getD i 0 : Int)) * 10 ^ i =
      ∑ i ∈ Finset.range k, ((c.getD i 0 : Int) - (d.getD i 0 : Int)) * 10 ^ i +
      ((c.getD k 0 : Int) - (d.getD k 0 : Int)) * 10 ^ k := by ring
  rw [hcomm] at htri
  linarith

theorem max_char_pswap (a b C D : List Nat) (hC : C.length = a.length)
    (hD : D.length = a.length) (k : Nat)
    (hCDabove : ∀ i, k < i → i < a.length →
      C.getD i 0 = a.getD i 0 ∧ D.getD i 0 = b.getD i 0)
    (hCk : C.getD k 0 = max (a.getD k 0) (b.getD k 0))
    (hDk : D.getD k 0 = min (a.getD k 0) (b.getD k 0))
    (hbet : ∀ i, i < k → C.getD i 0 = min (a.getD i 0) (b.getD i 0) ∧
      D.getD i 0 = max (a.getD i 0) (b.getD i 0)) :
    PSwapFrom 0 a b C D := by
  refine ⟨hC, hD, fun i hi => absurd hi (Nat.not_lt_zero i), fun i _ hin => ?_⟩
  rcases lt_trichotomy i k with h | h | h
  · obtain ⟨hc, hd⟩ := hbet i h
    rcases Nat.le_total (a.getD i 0) (b.getD i 0) with hle | hle
    · left
      rw [hc, hd, Nat.min_eq_left hle, Nat.max_eq_right hle]
      exact ⟨rfl, rfl⟩
    · right
      rw [hc, hd, Nat.min_eq_right hle, Nat.max_eq_left hle]
      exact ⟨rfl, rfl⟩
  · subst h
    rcases Nat.le_total (a.getD i 0) (b.getD i 0) with hle | hle
    · right
      rw [hCk, hDk, Nat.max_eq_right hle, Nat.min_eq_left hle]
      exact ⟨rfl, rfl⟩
    · left
      rw [hCk, hDk, Nat.max_eq_left hle, Nat.min_eq_right hle]
      exact ⟨rfl, rfl⟩
  · exact Or.inl (hCDabove i h hin)

theorem min_char_pswap (a b C D : List Nat) (hC : C.length = a.length)
    (hD : D.length = a.length)
    (hchar : ∀ i, i < a.length → C.getD i 0 = max (a.getD i 0) (b.getD i 0) ∧
      D.getD i 0 = min (a.getD i 0) (b.getD i 0)) :
    PSwapFrom 0 a b C D := by
  refine ⟨hC, hD, fun i hi => absurd hi (Nat.not_lt_zero i), fun i _ hin => ?_⟩
  obtain ⟨hc, hd⟩ := hchar i hin
  rcases Nat.le_total (a.getD i 0) (b.getD i 0) with hle | hle
  · right
    rw [hc, hd, Nat.max_eq_right hle, Nat.min_eq_left hle]
    exact ⟨rfl, rfl⟩
  · left
    rw [hc, hd, Nat.max_eq_left hle, Nat.min_eq_right hle]
    exact ⟨rfl, rfl⟩

theorem greedy_min_diff (a b C D : List Nat) (hC : C.length = a.length)
    (hD : D.length = a.length)
    (hchar : ∀ i, i < a.length → C.getD i 0 = max (a.getD i 0) (b.getD i 0) ∧
      D.getD i 0 = min (a.getD i 0) (b.getD i 0)) :
    (toVal C : Int) - (toVal D : Int) =
      ∑ i ∈ Finset.range a.length,
        |(a.getD i 0 : Int) - (b.getD i 0 : Int)| * 10 ^ i := by
  rw [diff_sum C D a.length hC hD]
  apply Finset.sum_congr rfl
  intro i hi
  obtain ⟨hc, hd⟩ := hchar i (Finset.mem_range.1 hi)
  rw [hc, hd, diff_abs_max_min]

theorem pswap_diff_upper (a b c d : List Nat) (hpsw : PSwapFrom 0 a b c d) :
    |(toVal c : Int) - (toVal d : Int)| ≤
      ∑ i ∈ Finset.range a.length,
        |(a.getD i 0 : Int) - (b.getD i 0 : Int)| * 10 ^ i := by
  obtain ⟨h1, h2, _, h4⟩ := hpsw
  rw [diff_sum c d a.length h1 h2]
  calc |∑ i ∈ Finset.range a.length,
        ((c.getD i 0 : Int) - (d.getD i 0 : Int)) * 10 ^ i|
      ≤ ∑ i ∈ Finset.range a.length,
        |((c.getD i 0 : Int) - (d.getD i 0 : Int)) * 10 ^ i| :=
        Finset.abs_sum_le_sum_abs _ _
    _ = ∑ i ∈ Finset.range a.length,
        |(a.getD i 0 : Int) - (b.getD i 0 : Int)| * 10 ^ i := by
        apply Finset.sum_congr rfl
        intro i hi
        rw [abs_mul, abs_of_nonneg (show (0 : Int) ≤ 10 ^ i by positivity)]
        rcases h4 i (by omega) (Finset.mem_range.1 hi) with ⟨hc, hd⟩ | ⟨hc, hd⟩
        · rw [hc, hd]
        · rw [hc, hd, abs_sub_comm]

/-- Optimality of the greedy maximizer against every reachable outcome. -/
theorem greedy_max_opt (a b C D c d : List Nat) (hb : b.length = a.length)
    (va : validDigits a = true) (vb : validDigits b = true)
    (hC : C.length = a.length) (hD : D.length = a.length)
    (k : Nat) (hk : k < a.length) (hkab : a.getD k 0 ≠ b.getD k 0)
    (habove : ∀ i, k < i → i < a.length → a.getD i 0 = b.getD i 0)
    (hCDabove : ∀ i, k < i → i < a.length →
      C.getD i 0 = a.getD i 0 ∧ D.getD i 0 = b.getD i 0)
    (hCk : C.getD k 0 = max (a.getD k 0) (b.getD k 0))
    (hDk : D.getD k 0 = min (a.getD k 0) (b.getD k 0))
    (hbet : ∀ i, i < k → C.getD i 0 = min (a.getD i 0) (b.getD i 0) ∧
      D.getD i 0 = max (a.getD i 0) (b.getD i 0))
    (hpsw : PSwapFrom 0 a b c d) :
    toVal c * toVal d ≤ toVal C * toVal D := by
  have hpswCD : PSwapFrom 0 a b C D :=
    max_char_pswap a b C D hC hD k hCDabove hCk hDk hbet
  apply prod_le_of_diff
  · have hs1 := pswap_sum a b c d hb hpsw
    have hs2 := pswap_sum a b C D hb hpswCD
    omega
  · have hdC := greedy_max_diff a b C D hC hD k hk habove hCDabove hCk hDk hbet
    have hT := diff_T_bound a b va vb k
    have h1 : (1 : Int) ≤ |(a.getD k 0 : Int) - (b.getD k 0 : Int)| := by
      apply Int.one_le_abs
      rw [sub_ne_zero]
      exact_mod_cast hkab
    have hpk : (10 : Int) ^ k ≤
        |(a.getD k 0 : Int) - (b.getD k 0 : Int)| * 10 ^ k := by
      calc (10 : Int) ^ k = 1 * 10 ^ k := by ring
        _ ≤ |(a.getD k 0 : Int) - (b.getD k 0 : Int)| * 10 ^ k :=
          mul_le_mul_of_nonneg_right h1 (by positivity)
    have hnn : 0 ≤ (toVal C : Int) - (toVal D : Int) := by
      rw [hdC]
      linarith
    rw [abs_of_nonneg hnn, hdC]
    exact pswap_diff_bound a b c d hb hpsw k hk habove

/-- Optimality of the greedy minimizer against every reachable outcome. -/
theorem greedy_min_opt (a b C D c d : List Nat) (hb : b.length = a.length)
    (hC : C.length = a.length) (hD : D.length = a.length)
    (hchar : ∀ i, i < a.length → C.getD i 0 = max (a.getD i 0) (b.getD i 0) ∧
      D.getD i 0 = min (a.getD i 0) (b.getD i 0))
    (hpsw : PSwapFrom 0 a b c d) :
    toVal C * toVal D ≤ toVal c * toVal d := by
  have hpswCD : PSwapFrom 0 a b C D := min_char_pswap a b C D hC hD hchar
  apply prod_le_of_diff
  · have hs1 := pswap_sum a b c d hb hpsw
    have hs2 := pswap_sum a b C D hb hpswCD
    omega
  · have hdC := greedy_min_diff a b C D hC hD hchar
    have hnn : 0 ≤ (toVal C : Int) - (toVal D : Int) := by
      rw [hdC]
      apply Finset.sum_nonneg
      intro i _
      positivity
    rw [abs_of_nonneg hnn, hdC]
    exact pswap_diff_upper a b c d hpsw

theorem greedy_eq_vals (a b c d : List Nat) (hb : b.length = a.length)
    (heq : ∀ i, i < a.length → a.getD i 0 = b.getD i 0)
    (hpsw : PSwapFrom 0 a b c d) :
    toVal c = toVal a ∧ toVal d = toVal b := by
  obtain ⟨h1, h2, _, h4⟩ := hpsw
  constructor
  · apply toVal_congr c a h1
    intro i hi
    have hin : i < a.length := by omega
    rcases h4 i (by omega) hin with ⟨hc, _⟩ | ⟨hc, _⟩
    · exact hc
    · rw [hc, heq i hin]
  · apply toVal_congr d b (by omega)
    intro i hi
    have hin : i < a.length := by omega
    rcases h4 i (by omega) hin with ⟨_, hd⟩ | ⟨_, hd⟩
    · exact hd
    · rw [hd, ← heq i hin]

/-- C3: for every pair of equal-length digit stores with decimal digit
cells, the product returned by the greedy `calc_max_product` equals (in
value) the maximum product returned by `calc_extreme_products_brute`, and
`calc_min_product` likewise matches the brute-force minimum. -/
theorem C3_greedy_matches_brute (a b : List Nat) (hlen : a.length = b.length)
    (va : validDigits a = true) (vb : validDigits b = true) :
    (calc_max_product a b).map (fun t => toVal t.2.2) =
      (calc_extreme_products_brute a b).map (fun r => toVal r.p_max) ∧
    (calc_min_product a b).map (fun t => toVal t.2.2) =
      (calc_extreme_products_brute a b).map (fun r => toVal r.p_min) := by
  have hb : b.length = a.length := hlen.symm
  have hne : ¬ (a.length ≠ b.length) := by omega
  have hspec := bruteAux_spec a.length a b hb (Nat.le_refl _)
  rw [Nat.sub_self] at hspec
  obtain ⟨⟨mp, me, mpm, mem⟩, omax, omin⟩ := hspec
  have hinv0 : MaxInv a b a.length a b false := by
    refine ⟨rfl, hb, fun i _ => ⟨rfl, rfl⟩, fun _ => ?_, by simp⟩
    exact ⟨fun i h1 h2 => by omega, fun i h1 h2 => by omega⟩
  have hmax := maxLoop_inv a b a.length a b false (Nat.le_refl _) hinv0
  obtain ⟨hLc, hLd, _, hFf, hFt⟩ := hmax
  have hmaxeq : toVal (mul (maxLoop a.length a b false).1
      (maxLoop a.length a b false).2.1) =
      toVal (bruteAux a.length a b).p_max := by
    cases hfd : (maxLoop a.length a b false).2.2 with
    | false =>
      obtain ⟨hequal, horient⟩ := hFf hfd
      have hc : toVal (maxLoop a.length a b false).1 = toVal a :=
        toVal_congr _ a hLc fun i hi => (horient i (by omega) (by omega)).1
      have hd : toVal (maxLoop a.length a b false).2.1 = toVal b :=
        toVal_congr _ b (by omega) fun i hi => (horient i (by omega) (by omega)).2
      have hcd := greedy_eq_vals a b _ _ hb (fun i hi => hequal i (by omega) hi) mp
      rw [toVal_mul, me, toVal_mul, hc, hd, hcd.1, hcd.2]
    | true =>
      obtain ⟨k, _, hk, hkab, habove, hCDab, hCk, hDk, hbet0⟩ := hFt hfd
      have hbet : ∀ i, i < k →
          (maxLoop a.length a b false).1.getD i 0 =
            min (a.getD i 0) (b.getD i 0) ∧
          (maxLoop a.length a b false).2.1.getD i 0 =
            max (a.getD i 0) (b.getD i 0) :=
        fun i hi => hbet0 i (by omega) hi
      apply Nat.le_antisymm
      · have hpswCD : PSwapFrom 0 a b (maxLoop a.length a b false).1
            (maxLoop a.length a b false).2.1 :=
          max_char_pswap a b _ _ hLc hLd k hCDab hCk hDk hbet
        exact omax _ _ hpswCD
      · rw [me, toVal_mul, toVal_mul]
        exact greedy_max_opt a b _ _ _ _ hb va vb hLc hLd k hk hkab habove
          hCDab hCk hDk hbet mp
  have hminv0 : MinInv a b a.length a b :=
    ⟨rfl, hb, fun i _ => ⟨rfl, rfl⟩, fun i h1 h2 => by omega⟩
  have hmin := minLoop_inv a b a.length a b (Nat.le_refl _) hminv0
  obtain ⟨hLc', hLd', _, hchar0⟩ := hmin
  have hchar : ∀ i, i < a.length →
      (minLoop a.length a b).1.getD i 0 = max (a.getD i 0) (b.getD i 0) ∧
      (minLoop a.length a b).2.getD i 0 = min (a.getD i 0) (b.getD i 0) :=
    fun i hi => hchar0 i (by omega) hi
  have hmineq : toVal (mul (minLoop a.length a b).1 (minLoop a.length a b).2) =
      toVal (bruteAux a.length a b).p_min := by
    apply Nat.le_antisymm
    · rw [mem, toVal_mul, toVal_mul]
      exact greedy_min_opt a b _ _ _ _ hb hLc' hLd' hchar mpm
    · exact omin _ _ (min_char_pswap a b _ _ hLc' hLd' hchar)
  have e1 : calc_max_product a b = Except.ok ((maxLoop a.length a b false).1,
      (maxLoop a.length a b false).2.1,
      mul (maxLoop a.length a b false).1 (maxLoop a.length a b false).2.1) := by
    simp only [calc_max_product]
    rw [if_neg hne]
  have e2 : calc_min_product a b = Except.ok ((minLoop a.length a b).1,
      (minLoop a.length a b).2,
      mul (minLoop a.length a b).1 (minLoop a.length a b).2) := by
    simp only [calc_min_product]
    rw [if_neg hne]
  have e3 : calc_extreme_products_brute a b = Except.ok (bruteAux a.length a b) := by
    simp only [calc_extreme_products_brute]
    rw [if_neg hne]
  constructor
  · rw [e1, e3]
    simp only [Except.map]
    exact congrArg Except.ok hmaxeq
  · rw [e2, e3]
    simp only [Except.map]
    exact congrArg Except.ok hmineq

/-- Witness for C3 at the spec's concrete scenario `a = 1234`, `b = 5678`
(stored least-significant digit first). -/
theorem C3_witness :
    ([4, 3, 2, 1] : List Nat).length = ([8, 7, 6, 5] : List Nat).length ∧
    validDigits [4, 3, 2, 1] = true ∧ validDigits [8, 7, 6, 5] = true ∧
    ((calc_max_product [4, 3, 2, 1] [8, 7, 6, 5]).map (fun t => toVal t.2.2) =
      (calc_extreme_products_brute [4, 3, 2, 1] [8, 7, 6, 5]).map
        (fun r => toVal r.p_max) ∧
    (calc_min_product [4, 3, 2, 1] [8, 7, 6, 5]).map (fun t => toVal t.2.2) =
      (calc_extreme_products_brute [4, 3, 2, 1] [8, 7, 6, 5]).map
        (fun r => toVal r.p_min)) :=
  ⟨by decide, by decide, by decide,
    C3_greedy_matches_brute [4, 3, 2, 1] [8, 7, 6, 5] (by decide) (by decide)
      (by decide)⟩

end MaxProduct
